import Mathlib

/-!
Verification of the mask-processing pipeline of
`atlas_registration_Brainglobe-Imaris` (`mask_processing_functions.py`).

A mask is a 3D integer array; since every operation of the pipeline treats
the array either pointwise or through boolean index masks aligned with it,
we embed a mask as the flattened list of its voxel values (`List Nat`).
The anatomical atlas is embedded as the query interface the code uses:
`structures[acr]["id"]`, `get_structure_descendants`, the `treelib` tree of
`structures.tree`, and the sequence `structures.values()`.
`scipy.ndimage.label` is an external collaborator; it is abstracted as a
caller-supplied labeling function, constrained (in the theorems that need
it) by `ValidLabel`, its documented contract.
-/

namespace MaskProc

/-! ## np.unique: sorted list of distinct values -/

/-- Insert a value into a strictly sorted list, keeping it sorted and
duplicate-free. `foldr` of this models `np.unique`. -/
def insertSortedU (x : Nat) : List Nat → List Nat
  | [] => [x]
  | y :: ys =>
    if x < y then x :: y :: ys
    else if x = y then y :: ys
    else y :: insertSortedU x ys

/-- `np.unique(mask)`: the sorted list of distinct values of the mask. -/
def uniqueVals (mask : List Nat) : List Nat :=
  mask.foldr insertSortedU []

theorem mem_insertSortedU {z x : Nat} : ∀ {l : List Nat},
    z ∈ insertSortedU x l ↔ z = x ∨ z ∈ l := by
  intro l
  induction l with
  | nil => simp [insertSortedU]
  | cons y ys ih =>
    by_cases h1 : x < y
    · simp [insertSortedU, h1]
    · by_cases h2 : x = y
      · simp only [insertSortedU, if_neg h1, if_pos h2, List.mem_cons]
        subst h2
        tauto
      · simp only [insertSortedU, if_neg h1, if_neg h2, List.mem_cons, ih]
        tauto

theorem mem_uniqueVals {z : Nat} : ∀ {mask : List Nat},
    z ∈ uniqueVals mask ↔ z ∈ mask := by
  intro mask
  induction mask with
  | nil => simp [uniqueVals]
  | cons a l ih =>
    simp only [uniqueVals, List.foldr_cons] at *
    rw [mem_insertSortedU, ih]
    simp

theorem chain'_insertSortedU_of_lt {x : Nat} :
    ∀ (l : List Nat) (y : Nat), List.Chain' (· < ·) (y :: l) → y < x →
      List.Chain' (· < ·) (y :: insertSortedU x l) := by
  intro l
  induction l with
  | nil =>
    intro y _ hyx
    simp [insertSortedU, hyx]
  | cons z zs ih =>
    intro y hchain hyx
    rw [List.chain'_cons] at hchain
    obtain ⟨hyz, hzchain⟩ := hchain
    by_cases h1 : x < z
    · simp only [insertSortedU, if_pos h1]
      exact List.Chain'.cons hyx (List.Chain'.cons h1 hzchain)
    · by_cases h2 : x = z
      · simp only [insertSortedU, if_neg h1, if_pos h2]
        exact List.Chain'.cons hyz hzchain
      · simp only [insertSortedU, if_neg h1, if_neg h2]
        have hzx : z < x := by omega
        exact List.Chain'.cons hyz (ih z hzchain hzx)

theorem chain'_insertSortedU {x : Nat} :
    ∀ {l : List Nat}, List.Chain' (· < ·) l →
      List.Chain' (· < ·) (insertSortedU x l) := by
  intro l hl
  cases l with
  | nil => simp [insertSortedU]
  | cons y ys =>
    by_cases h1 : x < y
    · simp only [insertSortedU, if_pos h1]
      exact List.Chain'.cons h1 hl
    · by_cases h2 : x = y
      · simpa [insertSortedU, h1, h2] using hl
      · simp only [insertSortedU, if_neg h1, if_neg h2]
        exact chain'_insertSortedU_of_lt ys y hl (by omega)

theorem chain'_uniqueVals : ∀ (mask : List Nat),
    List.Chain' (· < ·) (uniqueVals mask) := by
  intro mask
  induction mask with
  | nil => simp [uniqueVals]
  | cons a l ih =>
    simpa [uniqueVals] using chain'_insertSortedU ih

theorem nodup_uniqueVals (mask : List Nat) : (uniqueVals mask).Nodup := by
  have h := chain'_uniqueVals mask
  rw [List.chain'_iff_pairwise] at h
  exact h.imp Nat.ne_of_lt

/-! ## The atlas query interface -/

/-- One entry of `atlas.structures.values()`. -/
structure AtlasStruct where
  id : Nat
  name : String
  acronym : String
deriving DecidableEq, Repr

mutual
/-- A `treelib` node: identifier, tag, children (`atlas.structures.tree`). -/
inductive RTree where
  | node : Nat → String → RForest → RTree
deriving DecidableEq, Repr
/-- An ordered sequence of sibling nodes. -/
inductive RForest where
  | nil : RForest
  | cons : RTree → RForest → RForest
deriving DecidableEq, Repr
end

/-- The atlas as the code queries it: id/descendants by acronym, the
region tree, and the raw structure records. -/
structure Atlas where
  idOf : String → Nat
  descendants : String → List String
  tree : RTree
  structsList : List AtlasStruct

/-- `tag.split(" ")[0]`: the acronym is the first space-separated word. -/
def firstWord (tag : String) : String :=
  (tag.splitOn " ").headD ""

mutual
/-- The body of `recurse` in `get_descendants_of_depth`, on one node:
iterate the node's children. -/
def descendN (sel cur : Nat) : RTree → List String
  | .node _ _ cs => descendF sel cur cs
/-- `recurse`'s `for child in children` loop: append the child's acronym
when the current depth is the selected one, otherwise recurse deeper. -/
def descendF (sel cur : Nat) : RForest → List String
  | .nil => []
  | .cons (.node _ tag cs) rest =>
    (if cur = sel then [firstWord tag]
     else descendF sel (cur + 1) cs) ++ descendF sel cur rest
end

mutual
/-- Look up the node with a given identifier (`tree.children(node_id)`
resolves the node by id; depth-first search, like `treelib`'s node table
this stands for, is irrelevant because identifiers are unique in a real
tree). -/
def findNode (nid : Nat) : RTree → Option RTree
  | .node i tag cs =>
    if i = nid then some (.node i tag cs) else findNodeF nid cs
def findNodeF (nid : Nat) : RForest → Option RTree
  | .nil => none
  | .cons t rest =>
    match findNode nid t with
    | some r => some r
    | none => findNodeF nid rest
end

/-- `get_descendants_of_depth(tree, parent_node_id, selected_depth)`:
acronyms of the descendants of the given node at exactly the selected
depth.  `treelib` raises when the node id is absent, embedded as `.error`;
the recursion starts with `current_depth = 1`. -/
def get_descendants_of_depth (tree : RTree) (parentNodeId : Nat)
    (selectedDepth : Nat) : Except String (List String) :=
  match findNode parentNodeId tree with
  | some t => .ok (descendN selectedDepth 1 t)
  | none => .error ("Node " ++ toString parentNodeId ++ " is not in the tree")

/-! ## Pointwise mask rewrites -/

/-- `m[m == p.1] = p.2` on one value. -/
def replacePair (p : Nat × Nat) (v : Nat) : Nat :=
  if v = p.1 then p.2 else v

/-- Apply a sequence of whole-mask replacements in order. -/
def applyPairs (pairs : List (Nat × Nat)) (m : List Nat) : List Nat :=
  pairs.foldl (fun m p => m.map (replacePair p)) m

/-- The replacement sequence performed by `flatten_regions`: for each
region in order, for each of its descendants in order, rewrite the
descendant's id to the region's id. -/
def flatPairs (atlas : Atlas) (regionAcronyms : List String) :
    List (Nat × Nat) :=
  regionAcronyms.flatMap fun a =>
    (atlas.descendants a).map fun d => (atlas.idOf d, atlas.idOf a)

/-- `flatten_regions(mask, atlas, region_acronyms)`. -/
def flatten_regions (mask : List Nat) (atlas : Atlas)
    (regionAcronyms : List String) : List Nat :=
  applyPairs (flatPairs atlas regionAcronyms) mask

/-- The replacement sequence of `exclude_regions`: each named region's id
is rewritten to 0. -/
def excludePairs (atlas : Atlas) (regionAcronyms : List String) :
    List (Nat × Nat) :=
  regionAcronyms.map fun a => (atlas.idOf a, 0)

/-- `exclude_regions(mask, atlas, region_acronyms)`. -/
def exclude_regions (mask : List Nat) (atlas : Atlas)
    (regionAcronyms : List String) : List Nat :=
  applyPairs (excludePairs atlas regionAcronyms) mask

/-- The replacement sequence of one `region_name` iteration of
`flatten_descendants_of_level`: resolve the descendants of the region at
the selected level, and merge each kept area's descendants into it. -/
def flattenLevelSteps (atlas : Atlas) (regionAcronyms : List String)
    (level : Nat) : Except String (List (Nat × Nat)) :=
  regionAcronyms.foldlM
    (fun acc a => do
      let keeps ← get_descendants_of_depth atlas.tree (atlas.idOf a) level
      pure (acc ++ keeps.flatMap fun k =>
        (atlas.descendants k).map fun d => (atlas.idOf d, atlas.idOf k)))
    []

/-- `flatten_descendants_of_level(mask, atlas, region_acronyms, level)`:
raises `ValueError` when `level < 1`, before the mask is copied. -/
def flatten_descendants_of_level (mask : List Nat) (atlas : Atlas)
    (regionAcronyms : List String) (level : Nat) :
    Except String (List Nat) :=
  if level < 1 then .error "Level must be at least 1."
  else (flattenLevelSteps atlas regionAcronyms level).map
    fun pairs => applyPairs pairs mask

/-! ## remap_large_values -/

/-- `all_ids[all_ids > max_value]`: the distinct over-range ids of the
mask, in ascending order. -/
def largeIds (mask : List Nat) (maxValue : Nat) : List Nat :=
  (uniqueVals mask).filter (fun v => decide (maxValue < v))

/-- `set(all_ids[all_ids <= max_value])`: the distinct in-range ids. -/
def usedIds (mask : List Nat) (maxValue : Nat) : List Nat :=
  (uniqueVals mask).filter (fun v => decide (v ≤ maxValue))

/-- `[i for i in range(1, max_value + 1) if i not in used_ids]`. -/
def availableIds (mask : List Nat) (maxValue : Nat) : List Nat :=
  (List.range' 1 maxValue).filter (fun i => decide (i ∉ usedIds mask maxValue))

/-- The three values returned by `remap_large_values`. -/
structure RemapResult where
  mask : List Nat
  id_remap : List (Nat × Nat)
  new_id_to_old_id : List (Nat × Nat)
deriving DecidableEq, Repr

/-- The `for old_id in large_ids` loop: raise when no candidate is left,
else pop the first candidate, record both directions of the mapping, and
rewrite the mask. -/
def remapLoop : List Nat → List Nat → List Nat → List (Nat × Nat) →
    List (Nat × Nat) → Except String RemapResult
  | [], _, m, rm, rv => .ok ⟨m, rm, rv⟩
  | _ :: _, [], _, _, _ => .error "No available uint16 IDs left to assign."
  | oldId :: rest, newId :: availRest, m, rm, rv =>
    remapLoop rest availRest (m.map (replacePair (oldId, newId)))
      (rm ++ [(oldId, newId)]) (rv ++ [(newId, oldId)])

/-- `remap_large_values(mask, max_value)` (value-level; the in-place
aspect is treated separately in the heap model below). -/
def remap_large_values (mask : List Nat) (maxValue : Nat) :
    Except String RemapResult :=
  remapLoop (largeIds mask maxValue) (availableIds mask maxValue) mask [] []

theorem remapLoop_ok_iff : ∀ (large avail m : List Nat)
    (rm rv : List (Nat × Nat)),
    (∃ res, remapLoop large avail m rm rv = .ok res) ↔
      large.length ≤ avail.length := by
  intro large
  induction large with
  | nil =>
    intro avail m rm rv
    simp [remapLoop]
  | cons oldId rest ih =>
    intro avail m rm rv
    cases avail with
    | nil => simp [remapLoop]
    | cons newId availRest =>
      simp only [remapLoop, List.length_cons]
      rw [ih]
      omega

theorem remapLoop_error_iff (large avail m : List Nat)
    (rm rv : List (Nat × Nat)) :
    (∃ e, remapLoop large avail m rm rv = .error e) ↔
      avail.length < large.length := by
  constructor
  · rintro ⟨e, he⟩
    by_contra hlen
    obtain ⟨res, hres⟩ := (remapLoop_ok_iff large avail m rm rv).mpr (by omega)
    rw [hres] at he
    exact Except.noConfusion he
  · intro hlen
    cases hloop : remapLoop large avail m rm rv with
    | ok res =>
      have := (remapLoop_ok_iff large avail m rm rv).mp ⟨res, hloop⟩
      omega
    | error e => exact ⟨e, rfl⟩

theorem remapLoop_ok_char : ∀ (large avail m : List Nat)
    (rm rv : List (Nat × Nat)) (res : RemapResult),
    remapLoop large avail m rm rv = .ok res →
      res.id_remap = rm ++ large.zip avail ∧
      res.new_id_to_old_id = rv ++ (large.zip avail).map Prod.swap ∧
      res.mask = applyPairs (large.zip avail) m := by
  intro large
  induction large with
  | nil =>
    intro avail m rm rv res h
    simp only [remapLoop, Except.ok.injEq] at h
    subst h
    simp [applyPairs]
  | cons oldId rest ih =>
    intro avail m rm rv res h
    cases avail with
    | nil => exact absurd h (by simp [remapLoop])
    | cons newId availRest =>
      simp only [remapLoop] at h
      obtain ⟨h1, h2, h3⟩ := ih availRest _ _ _ res h
      refine ⟨?_, ?_, ?_⟩
      · simpa [List.zip_cons_cons, List.append_assoc] using h1
      · simpa [List.zip_cons_cons, List.append_assoc] using h2
      · simpa [List.zip_cons_cons, applyPairs] using h3

theorem remapLoop_mask_le (V : Nat) : ∀ (large avail m : List Nat)
    (rm rv : List (Nat × Nat)) (res : RemapResult),
    (∀ v ∈ m, v ≤ V ∨ v ∈ large) → (∀ a ∈ avail, a ≤ V) →
    remapLoop large avail m rm rv = .ok res →
    ∀ v ∈ res.mask, v ≤ V := by
  intro large
  induction large with
  | nil =>
    intro avail m rm rv res hm _ h
    simp only [remapLoop, Except.ok.injEq] at h
    subst h
    intro v hv
    rcases hm v hv with h | h
    · exact h
    · simp at h
  | cons oldId rest ih =>
    intro avail m rm rv res hm ha h
    cases avail with
    | nil => exact absurd h (by simp [remapLoop])
    | cons newId availRest =>
      simp only [remapLoop] at h
      refine ih availRest _ _ _ res ?_ ?_ h
      · intro v hv
        rw [List.mem_map] at hv
        obtain ⟨w, hw, hrepl⟩ := hv
        by_cases hwold : w = oldId
        · left
          rw [← hrepl, replacePair, if_pos hwold]
          exact ha newId (by simp)
        · rw [← hrepl, replacePair, if_neg hwold]
          rcases hm w hw with h' | h'
          · exact Or.inl h'
          · rcases List.mem_cons.mp h' with h'' | h''
            · exact absurd h'' hwold
            · exact Or.inr h''
      · intro a haa
        exact ha a (List.mem_cons_of_mem _ haa)

theorem mem_map_snd_zip {x : Nat} : ∀ (l1 l2 : List Nat),
    x ∈ (l1.zip l2).map Prod.snd → x ∈ l2 := by
  intro l1 l2 h
  rw [List.mem_map] at h
  obtain ⟨p, hp, hpx⟩ := h
  exact hpx ▸ (List.of_mem_zip hp).2

theorem nodup_map_snd_zip : ∀ (l1 l2 : List Nat), l2.Nodup →
    ((l1.zip l2).map Prod.snd).Nodup := by
  intro l1
  induction l1 with
  | nil => intro l2 _; simp
  | cons a l1' ih =>
    intro l2 h2
    cases l2 with
    | nil => simp
    | cons b l2' =>
      simp only [List.zip_cons_cons, List.map_cons]
      rw [List.nodup_cons] at h2 ⊢
      exact ⟨fun hmem => h2.1 (mem_map_snd_zip l1' l2' hmem), ih l2' h2.2⟩

theorem mem_availableIds {mask : List Nat} {V x : Nat} :
    x ∈ availableIds mask V ↔
      (1 ≤ x ∧ x ≤ V) ∧ x ∉ usedIds mask V := by
  rw [availableIds, List.mem_filter, List.mem_range'_1]
  simp only [decide_eq_true_eq]
  constructor
  · rintro ⟨⟨h1, h2⟩, h3⟩
    exact ⟨⟨h1, by omega⟩, h3⟩
  · rintro ⟨⟨h1, h2⟩, h3⟩
    exact ⟨⟨h1, by omega⟩, h3⟩


/-- Claim C3: `remap_large_values` raises an error (RemapExhausted) if and
only if the number of distinct over-range IDs (> max_value) in the mask
exceeds the number of integers in [1, max_value] not already used as
in-range IDs; in particular, with max_value = 2 and a mask whose distinct
nonzero IDs are {1, 2, 500}, it fails. -/
theorem remap_exhausted_iff :
    (∀ (mask : List Nat) (maxValue : Nat),
      (∃ e, remap_large_values mask maxValue = .error e) ↔
        (availableIds mask maxValue).length <
          (largeIds mask maxValue).length) ∧
    (∃ e, remap_large_values [1, 2, 500] 2 = .error e) := by
  constructor
  · intro mask maxValue
    exact remapLoop_error_iff _ _ _ _ _
  · exact ⟨"No available uint16 IDs left to assign.", by rfl⟩

/-- Claim C4: when `remap_large_values` succeeds with bound V: distinct
over-range IDs get distinct new IDs (the old-to-new map is injective on
its values), no assigned new ID equals any ID already present in the mask
and ≤ V, every value of the returned mask lies in [0, V], and over-range
IDs are assigned in ascending order to the smallest available candidates
in ascending order (the map is the zip of the two ascending lists). -/
theorem remap_success_invariants (mask : List Nat) (V : Nat)
    (res : RemapResult) (h : remap_large_values mask V = .ok res) :
    (res.id_remap.map Prod.snd).Nodup ∧
    (∀ p ∈ res.id_remap, ∀ u ∈ mask, u ≤ V → p.2 ≠ u) ∧
    (∀ v ∈ res.mask, v ≤ V) ∧
    res.id_remap = (largeIds mask V).zip (availableIds mask V) ∧
    List.Pairwise (· < ·) (largeIds mask V) ∧
    List.Pairwise (· < ·) (availableIds mask V) := by
  obtain ⟨h1, h2, h3⟩ := remapLoop_ok_char _ _ _ _ _ _ h
  simp only [List.nil_append] at h1 h2
  have hnodupAvail : (availableIds mask V).Nodup :=
    (List.nodup_range' 1 V).filter _
  have hsortU : List.Pairwise (· < ·) (uniqueVals mask) := by
    have hc := chain'_uniqueVals mask
    rwa [List.chain'_iff_pairwise] at hc
  refine ⟨?_, ?_, ?_, h1, hsortU.filter _,
    (List.pairwise_lt_range' 1 V).filter _⟩
  · rw [h1]
    exact nodup_map_snd_zip _ _ hnodupAvail
  · intro p hp u hu huV
    rw [h1] at hp
    obtain ⟨a, b⟩ := p
    have hb : b ∈ availableIds mask V := (List.of_mem_zip hp).2
    have hbnotused : b ∉ usedIds mask V := (mem_availableIds.mp hb).2
    intro hbu
    apply hbnotused
    have hbu' : b = u := hbu
    rw [hbu']
    exact List.mem_filter.mpr
      ⟨mem_uniqueVals.mpr hu, by simpa using huV⟩
  · refine remapLoop_mask_le V _ _ _ _ _ _ ?_ ?_ h
    · intro v hv
      by_cases hvV : v ≤ V
      · exact Or.inl hvV
      · exact Or.inr (List.mem_filter.mpr
          ⟨mem_uniqueVals.mpr hv, by simpa using Nat.lt_of_not_le hvV⟩)
    · intro a ha
      exact (mem_availableIds.mp ha).1.2

/-- Witness for C4 at the spec's remap scenario (V = 100, mask contains
150 and no 1): 150 remaps to candidate 1. -/
theorem remap_success_invariants_witness :
    ((RemapResult.mk [1, 0, 3] [(150, 1)] [(1, 150)]).id_remap.map
        Prod.snd).Nodup ∧
    (RemapResult.mk [1, 0, 3] [(150, 1)] [(1, 150)]).id_remap =
      (largeIds [150, 0, 3] 100).zip (availableIds [150, 0, 3] 100) := by
  have h := remap_success_invariants [150, 0, 3] 100
    (RemapResult.mk [1, 0, 3] [(150, 1)] [(1, 150)]) (by rfl)
  exact ⟨h.1, h.2.2.2.1⟩

/-! ## remove_small_fragments -/

/-- One fragment record `(id, region_name, i, size, removed)`, with the
column names of `create_fragment_table`. -/
structure FragmentRec where
  region_id : Nat
  region_name : String
  fragment_index : Nat
  fragment_size_voxels : Nat
  removed : Bool
deriving DecidableEq, Repr

/-- `np.bincount`: occurrence counts of 0, 1, ..., max value; the empty
array yields an empty count vector. -/
def bincount (l : List Nat) : List Nat :=
  (List.range (if l = [] then 0 else l.foldr max 0 + 1)).map
    fun j => l.count j

/-- `np.bincount(labeled.ravel())[1:]`: per-component voxel counts. -/
def componentSizes (labeled : List Nat) : List Nat :=
  (bincount labeled).drop 1

/-- `{s["id"]: s["name"] for s in atlas.structures.values()}.get(i, ...)`:
dict comprehension (last entry wins) with the f-string default. -/
def idToName (structs : List AtlasStruct) (i : Nat) : String :=
  ((((structs.filter fun s => s.id == i).map fun s => s.name).getLast?).getD
    ("Unknown ID " ++ toString i))

/-- `label(mask == i, structure)[0]`: the labeled array for region `i`,
with the connected-component labeling supplied by the caller. -/
def regionLabeled (labelFn : List Bool → List Nat × Nat) (mask : List Nat)
    (i : Nat) : List Nat :=
  (labelFn (mask.map fun v => v == i)).1

/-- One iteration of the `for i, size in enumerate(component_sizes, 1)`
loop: zero the component's voxels when it is small, and append its
fragment record. `p.1` is the 0-based enumeration index. -/
def fragStep (minSize : Nat) (labeled : List Nat) (i : Nat) (nm : String)
    (acc : List Nat × List FragmentRec) (p : Nat × Nat) :
    List Nat × List FragmentRec :=
  if p.2 < minSize then
    (List.zipWith (fun c lv => if lv = p.1 + 1 then 0 else c) acc.1 labeled,
     acc.2 ++ [⟨i, nm, p.1 + 1, p.2, true⟩])
  else (acc.1, acc.2 ++ [⟨i, nm, p.1 + 1, p.2, false⟩])

/-- The whole per-region component loop of `remove_small_fragments`. -/
def processRegion (minSize : Nat) (labeled : List Nat) (i : Nat)
    (nm : String) (acc : List Nat × List FragmentRec) :
    List Nat × List FragmentRec :=
  (componentSizes labeled).enum.foldl (fragStep minSize labeled i nm) acc

/-- `region_ids = np.unique(mask); region_ids[region_ids != 0]`. -/
def regionIdsOf (mask : List Nat) : List Nat :=
  (uniqueVals mask).filter fun i => decide (i ≠ 0)

/-- `remove_small_fragments(mask, min_size, structure, atlas)`; the
`structure` argument lives inside `labelFn`, the abstracted
`scipy.ndimage.label(·, structure)`. -/
def remove_small_fragments (mask : List Nat) (minSize : Nat)
    (labelFn : List Bool → List Nat × Nat) (atlas : Atlas) :
    List Nat × List FragmentRec :=
  (regionIdsOf mask).foldl
    (fun acc i =>
      processRegion minSize (regionLabeled labelFn mask i) i
        (idToName atlas.structsList i) acc)
    (mask, [])

/-- The documented contract of `scipy.ndimage.label` on a boolean volume:
the labeled output has the input's shape, a voxel gets a nonzero label
exactly when it is foreground, and labels are the consecutive integers
1, ..., num_features. -/
def ValidLabel (labelFn : List Bool → List Nat × Nat) : Prop :=
  ∀ bm : List Bool,
    (labelFn bm).1.length = bm.length ∧
    (∀ k, k < bm.length →
      (((labelFn bm).1.getD k 0 ≠ 0) ↔ bm.getD k false = true)) ∧
    (∀ j, 1 ≤ j → j ≤ (labelFn bm).1.foldr max 0 → j ∈ (labelFn bm).1)

/-- A concrete labeling (everything foreground is one single component),
used to instantiate the `ValidLabel` hypotheses on concrete inputs. -/
def oneCompLabel (bm : List Bool) : List Nat × Nat :=
  (bm.map fun b => if b then 1 else 0, if bm.any (fun b => b) then 1 else 0)

theorem le_foldr_max : ∀ (l : List Nat), ∀ v ∈ l, v ≤ l.foldr max 0 := by
  intro l
  induction l with
  | nil => intro v hv; simp at hv
  | cons a tl ih =>
    intro v hv
    rcases List.mem_cons.mp hv with h | h
    · simp [h, Nat.le_max_left]
    · exact Nat.le_trans (ih v h) (by simp [Nat.le_max_right])

theorem foldr_max_zero_or_mem : ∀ (l : List Nat),
    l.foldr max 0 = 0 ∨ l.foldr max 0 ∈ l := by
  intro l
  induction l with
  | nil => simp
  | cons a tl ih =>
    simp only [List.foldr_cons]
    rcases Nat.le_total a (tl.foldr max 0) with h | h
    · rw [Nat.max_eq_right h]
      rcases ih with h' | h'
      · exact Or.inl h'
      · exact Or.inr (List.mem_cons_of_mem _ h')
    · rw [Nat.max_eq_left h]
      exact Or.inr (List.mem_cons_self _ _)

theorem getD_map_of_lt {α β : Type} (f : α → β) (l : List α) (k : Nat)
    (d : β) (d' : α) (h : k < l.length) :
    (l.map f).getD k d = f (l.getD k d') := by
  rw [List.getD_eq_getElem _ _ (by simpa using h),
    List.getD_eq_getElem _ _ h, List.getElem_map]

theorem sum_map_add_nat {α : Type} (f g : α → Nat) : ∀ (l : List α),
    (l.map fun x => f x + g x).sum = (l.map f).sum + (l.map g).sum := by
  intro l
  induction l with
  | nil => simp
  | cons a tl ih =>
    simp only [List.map_cons, List.sum_cons, ih]
    omega

theorem sum_map_ite_range (a : Nat) : ∀ (n : Nat),
    ((List.range n).map fun j => if a = j then 1 else 0).sum =
      if a < n then 1 else 0 := by
  intro n
  induction n with
  | zero => simp
  | succ m ih =>
    rw [List.range_succ, List.map_append, List.sum_append, ih]
    by_cases h : a < m
    · simp [h, Nat.lt_succ_of_lt h]
      omega
    · by_cases h2 : a = m
      · simp [h, h2]
      · have : ¬ a < m + 1 := by omega
        simp [h, h2, this]

theorem sum_map_count_range : ∀ (l : List Nat) (n : Nat),
    (∀ v ∈ l, v < n) →
    ((List.range n).map fun j => l.count j).sum = l.length := by
  intro l
  induction l with
  | nil => intro n _; simp
  | cons a tl ih =>
    intro n hbound
    have hcount : ∀ j, (a :: tl).count j = tl.count j +
        (if a = j then 1 else 0) := by
      intro j
      rw [List.count_cons]
      by_cases h : a = j
      · simp [h]
      · simp [h]
    calc ((List.range n).map fun j => (a :: tl).count j).sum
        = ((List.range n).map fun j =>
            tl.count j + (if a = j then 1 else 0)).sum := by
          exact congrArg List.sum (List.map_congr_left fun j _ => hcount j)
      _ = ((List.range n).map fun j => tl.count j).sum +
          ((List.range n).map fun j => if a = j then 1 else 0).sum :=
          sum_map_add_nat _ _ _
      _ = tl.length + 1 := by
          rw [ih n (fun v hv => hbound v (List.mem_cons_of_mem _ hv)),
            sum_map_ite_range]
          simp [hbound a (List.mem_cons_self _ _)]
      _ = (a :: tl).length := by simp

theorem bincount_cons_sizes (l : List Nat) (hl : l ≠ []) :
    bincount l = l.count 0 :: componentSizes l := by
  have hM : bincount l = (List.range (l.foldr max 0 + 1)).map
      fun j => l.count j := by
    simp [bincount, hl]
  rw [componentSizes, hM, List.range_succ_eq_map]
  simp

theorem sum_componentSizes (l : List Nat) :
    (componentSizes l).sum = l.countP fun v => decide (v ≠ 0) := by
  by_cases hl : l = []
  · subst hl
    simp [componentSizes, bincount]
  · have hsum : (bincount l).sum = l.length := by
      have : bincount l = (List.range (l.foldr max 0 + 1)).map
          fun j => l.count j := by simp [bincount, hl]
      rw [this]
      exact sum_map_count_range l _
        (fun v hv => Nat.lt_succ_of_le (le_foldr_max l v hv))
    have hcons := bincount_cons_sizes l hl
    rw [hcons] at hsum
    simp only [List.sum_cons] at hsum
    have hsplit := List.length_eq_countP_add_countP
      (l := l) (fun v => decide (v ≠ 0))
    have hcount0 : List.countP
        (fun a => decide ¬(decide (a ≠ 0)) = true) l = l.count 0 := by
      rw [List.count_eq_countP]
      apply List.countP_congr
      intro a _
      by_cases h : a = 0
      · simp [h]
      · simp [h]
    omega

theorem sizes_length (l : List Nat) :
    (componentSizes l).length = l.foldr max 0 := by
  by_cases hl : l = []
  · subst hl; simp [componentSizes, bincount]
  · simp [componentSizes, bincount, hl]

theorem getElem_bincount (l : List Nat) (i : Nat)
    {h : i < (bincount l).length} : (bincount l)[i] = l.count i := by
  simp only [bincount] at h ⊢
  rw [List.getElem_map, List.getElem_range]

theorem sizes_getD (l : List Nat) (j : Nat) (h1 : 1 ≤ j)
    (h2 : j ≤ l.foldr max 0) :
    (componentSizes l).getD (j - 1) 0 = l.count j := by
  have hlen : j - 1 < (componentSizes l).length := by
    rw [sizes_length]; omega
  rw [List.getD_eq_getElem _ _ hlen]
  simp only [componentSizes, List.getElem_drop]
  rw [getElem_bincount]
  congr 1
  omega

theorem mem_enum_iff {α : Type} (l : List α) (p : Nat × α) :
    p ∈ l.enum ↔ ∃ h : p.1 < l.length, l[p.1] = p.2 := by
  obtain ⟨a, b⟩ := p
  constructor
  · intro h
    rw [List.mem_iff_getElem] at h
    obtain ⟨n, hn, he⟩ := h
    have hn' : n < l.length := by simpa [List.enum_length] using hn
    rw [List.getElem_enum, Prod.mk.injEq] at he
    obtain ⟨h1, h2⟩ := he
    subst h1
    exact ⟨hn', h2⟩
  · rintro ⟨h, he⟩
    rw [List.mem_iff_getElem]
    refine ⟨a, by simpa [List.enum_length] using h, ?_⟩
    rw [List.getElem_enum, Prod.mk.injEq]
    exact ⟨rfl, he⟩

theorem getD_zipWith_mask (c l : List Nat) (j k : Nat) (hc : k < c.length)
    (hl : k < l.length) :
    (List.zipWith (fun x lv => if lv = j then 0 else x) c l).getD k 0 =
      if l.getD k 0 = j then 0 else c.getD k 0 := by
  have hz : k < (List.zipWith
      (fun x lv => if lv = j then 0 else x) c l).length := by
    rw [List.length_zipWith]
    exact lt_min hc hl
  rw [List.getD_eq_getElem _ _ hz, List.getElem_zipWith,
    List.getD_eq_getElem _ _ hc, List.getD_eq_getElem _ _ hl]

theorem foldl_fragStep_snd (minSize : Nat) (labeled : List Nat) (i : Nat)
    (nm : String) : ∀ (ps : List (Nat × Nat))
    (acc : List Nat × List FragmentRec),
    (ps.foldl (fragStep minSize labeled i nm) acc).2 =
      acc.2 ++ ps.map fun p =>
        ⟨i, nm, p.1 + 1, p.2, decide (p.2 < minSize)⟩ := by
  intro ps
  induction ps with
  | nil => intro acc; simp
  | cons p ps' ih =>
    intro acc
    rw [List.foldl_cons, ih]
    by_cases h : p.2 < minSize
    · simp [fragStep, h]
    · simp [fragStep, h]

theorem fragStep_fst_length (minSize : Nat) (labeled : List Nat) (i : Nat)
    (nm : String) (acc : List Nat × List FragmentRec) (p : Nat × Nat)
    (hlen : acc.1.length = labeled.length) :
    (fragStep minSize labeled i nm acc p).1.length = labeled.length := by
  by_cases h : p.2 < minSize
  · simp [fragStep, h, List.length_zipWith, hlen]
  · simp [fragStep, h, hlen]

theorem foldl_fragStep_fst_length (minSize : Nat) (labeled : List Nat)
    (i : Nat) (nm : String) : ∀ (ps : List (Nat × Nat))
    (acc : List Nat × List FragmentRec),
    acc.1.length = labeled.length →
    (ps.foldl (fragStep minSize labeled i nm) acc).1.length =
      labeled.length := by
  intro ps
  induction ps with
  | nil => intro acc h; simpa using h
  | cons p ps' ih =>
    intro acc h
    rw [List.foldl_cons]
    exact ih _ (fragStep_fst_length _ _ _ _ _ _ h)

theorem foldl_fragStep_fst_getD (minSize : Nat) (labeled : List Nat)
    (i : Nat) (nm : String) : ∀ (ps : List (Nat × Nat))
    (acc : List Nat × List FragmentRec),
    acc.1.length = labeled.length → ∀ k, k < labeled.length →
    (ps.foldl (fragStep minSize labeled i nm) acc).1.getD k 0 =
      if ∃ p ∈ ps, p.2 < minSize ∧ labeled.getD k 0 = p.1 + 1 then 0
      else acc.1.getD k 0 := by
  intro ps
  induction ps with
  | nil => intro acc _ k _; simp
  | cons p ps' ih =>
    intro acc hlen k hk
    rw [List.foldl_cons, ih _ (fragStep_fst_length _ _ _ _ _ _ hlen) k hk]
    by_cases hex : ∃ q ∈ ps', q.2 < minSize ∧ labeled.getD k 0 = q.1 + 1
    · obtain ⟨q, hq, hcq⟩ := hex
      rw [if_pos ⟨q, hq, hcq⟩, if_pos ⟨q, List.mem_cons_of_mem _ hq, hcq⟩]
    · rw [if_neg hex]
      by_cases hp : p.2 < minSize ∧ labeled.getD k 0 = p.1 + 1
      · rw [if_pos ⟨p, List.mem_cons_self _ _, hp⟩]
        obtain ⟨hp1, hp2⟩ := hp
        simp only [fragStep, if_pos hp1]
        rw [getD_zipWith_mask _ _ _ _ (by omega) hk, if_pos hp2]
      · have hex2 : ¬ ∃ q ∈ p :: ps',
            q.2 < minSize ∧ labeled.getD k 0 = q.1 + 1 := by
          rintro ⟨q, hq, hcq⟩
          rcases List.mem_cons.mp hq with h | h
          · exact hp (h ▸ hcq)
          · exact hex ⟨q, h, hcq⟩
        rw [if_neg hex2]
        by_cases hp1 : p.2 < minSize
        · simp only [fragStep, if_pos hp1]
          rw [getD_zipWith_mask _ _ _ _ (by omega) hk]
          have hne : ¬ labeled.getD k 0 = p.1 + 1 := fun hc => hp ⟨hp1, hc⟩
          rw [if_neg hne]
        · simp [fragStep, hp1]

/-- The fragment records emitted for one region id. -/
def recsFor (minSize : Nat) (labelFn : List Bool → List Nat × Nat)
    (mask : List Nat) (structs : List AtlasStruct) (i : Nat) :
    List FragmentRec :=
  (componentSizes (regionLabeled labelFn mask i)).enum.map fun p =>
    ⟨i, idToName structs i, p.1 + 1, p.2, decide (p.2 < minSize)⟩

theorem rsf_foldl_snd (minSize : Nat)
    (labelFn : List Bool → List Nat × Nat) (mask : List Nat)
    (structs : List AtlasStruct) : ∀ (ids : List Nat)
    (acc : List Nat × List FragmentRec),
    ((ids.foldl (fun acc i =>
        processRegion minSize (regionLabeled labelFn mask i) i
          (idToName structs i) acc) acc).2 =
      acc.2 ++ ids.flatMap (recsFor minSize labelFn mask structs)) := by
  intro ids
  induction ids with
  | nil => intro acc; simp
  | cons i rest ih =>
    intro acc
    rw [List.foldl_cons, ih]
    simp only [processRegion, foldl_fragStep_snd, List.flatMap_cons,
      List.append_assoc, recsFor]

theorem rsf_snd (mask : List Nat) (minSize : Nat)
    (labelFn : List Bool → List Nat × Nat) (atlas : Atlas) :
    (remove_small_fragments mask minSize labelFn atlas).2 =
      (regionIdsOf mask).flatMap
        (recsFor minSize labelFn mask atlas.structsList) := by
  rw [remove_small_fragments, rsf_foldl_snd]
  simp

theorem regionLabeled_length (labelFn : List Bool → List Nat × Nat)
    (hV : ValidLabel labelFn) (mask : List Nat) (i : Nat) :
    (regionLabeled labelFn mask i).length = mask.length := by
  rw [regionLabeled]
  rw [(hV (mask.map fun v => v == i)).1]
  simp

theorem rsf_foldl_fst_getD (minSize : Nat)
    (labelFn : List Bool → List Nat × Nat) (hV : ValidLabel labelFn)
    (mask : List Nat) (structs : List AtlasStruct) : ∀ (ids : List Nat)
    (acc : List Nat × List FragmentRec),
    acc.1.length = mask.length → ∀ k, k < mask.length →
    ((ids.foldl (fun acc i =>
        processRegion minSize (regionLabeled labelFn mask i) i
          (idToName structs i) acc) acc).1.getD k 0 =
      if ∃ i ∈ ids,
          ∃ p ∈ (componentSizes (regionLabeled labelFn mask i)).enum,
            p.2 < minSize ∧
              (regionLabeled labelFn mask i).getD k 0 = p.1 + 1 then 0
      else acc.1.getD k 0) := by
  intro ids
  induction ids with
  | nil => intro acc _ k _; simp
  | cons i rest ih =>
    intro acc hlen k hk
    have hreglen := regionLabeled_length labelFn hV mask i
    have hlen' : acc.1.length = (regionLabeled labelFn mask i).length := by
      omega
    rw [List.foldl_cons]
    rw [ih (processRegion minSize (regionLabeled labelFn mask i) i
        (idToName structs i) acc)
      (by
        have := foldl_fragStep_fst_length minSize
          (regionLabeled labelFn mask i) i (idToName structs i)
          (componentSizes (regionLabeled labelFn mask i)).enum acc hlen'
        rw [processRegion]
        omega) k hk]
    have hstep := foldl_fragStep_fst_getD minSize
      (regionLabeled labelFn mask i) i (idToName structs i)
      (componentSizes (regionLabeled labelFn mask i)).enum acc hlen'
      k (by omega)
    rw [processRegion, hstep]
    by_cases hex : ∃ j ∈ rest,
        ∃ p ∈ (componentSizes (regionLabeled labelFn mask j)).enum,
          p.2 < minSize ∧ (regionLabeled labelFn mask j).getD k 0 = p.1 + 1
    · obtain ⟨j, hj, hcj⟩ := hex
      rw [if_pos ⟨j, hj, hcj⟩, if_pos ⟨j, List.mem_cons_of_mem _ hj, hcj⟩]
    · rw [if_neg hex]
      by_cases hp : ∃ p ∈ (componentSizes (regionLabeled labelFn mask i)).enum,
          p.2 < minSize ∧ (regionLabeled labelFn mask i).getD k 0 = p.1 + 1
      · rw [if_pos hp, if_pos ⟨i, List.mem_cons_self _ _, hp⟩]
      · rw [if_neg hp]
        have hex2 : ¬ ∃ j ∈ i :: rest,
            ∃ p ∈ (componentSizes (regionLabeled labelFn mask j)).enum,
              p.2 < minSize ∧
                (regionLabeled labelFn mask j).getD k 0 = p.1 + 1 := by
          rintro ⟨j, hj, hcj⟩
          rcases List.mem_cons.mp hj with h | h
          · exact hp (h ▸ hcj)
          · exact hex ⟨j, h, hcj⟩
        rw [if_neg hex2]

theorem rsf_fst_getD (mask : List Nat) (minSize : Nat)
    (labelFn : List Bool → List Nat × Nat) (hV : ValidLabel labelFn)
    (atlas : Atlas) (k : Nat) (hk : k < mask.length) :
    (remove_small_fragments mask minSize labelFn atlas).1.getD k 0 =
      if ∃ i ∈ regionIdsOf mask,
          ∃ p ∈ (componentSizes (regionLabeled labelFn mask i)).enum,
            p.2 < minSize ∧
              (regionLabeled labelFn mask i).getD k 0 = p.1 + 1 then 0
      else mask.getD k 0 := by
  rw [remove_small_fragments,
    rsf_foldl_fst_getD minSize labelFn hV mask atlas.structsList
      (regionIdsOf mask) (mask, []) rfl k hk]

theorem nodup_regionIdsOf (mask : List Nat) : (regionIdsOf mask).Nodup :=
  (nodup_uniqueVals mask).filter _

theorem mem_regionIdsOf {mask : List Nat} {i : Nat} :
    i ∈ regionIdsOf mask ↔ i ∈ mask ∧ i ≠ 0 := by
  rw [regionIdsOf, List.mem_filter, mem_uniqueVals]
  simp

theorem region_id_of_mem_recsFor (minSize : Nat)
    (labelFn : List Bool → List Nat × Nat) (mask : List Nat)
    (structs : List AtlasStruct) (j : Nat) (fr : FragmentRec)
    (h : fr ∈ recsFor minSize labelFn mask structs j) :
    fr.region_id = j := by
  rw [recsFor, List.mem_map] at h
  obtain ⟨p, _, hp⟩ := h
  rw [← hp]

theorem filter_flatMap_recsFor (minSize : Nat)
    (labelFn : List Bool → List Nat × Nat) (mask : List Nat)
    (structs : List AtlasStruct) : ∀ (ids : List Nat), ids.Nodup →
    ∀ i ∈ ids,
    ((ids.flatMap (recsFor minSize labelFn mask structs)).filter
      fun fr => fr.region_id == i) =
      recsFor minSize labelFn mask structs i := by
  intro ids
  induction ids with
  | nil => intro _ i hi; simp at hi
  | cons j rest ih =>
    intro hnd i hi
    rw [List.flatMap_cons, List.filter_append]
    rw [List.nodup_cons] at hnd
    rcases List.mem_cons.mp hi with rfl | hi'
    · have h1 : ((recsFor minSize labelFn mask structs i).filter
          fun fr => fr.region_id == i) =
          recsFor minSize labelFn mask structs i := by
        rw [List.filter_eq_self]
        intro fr hfr
        simp [region_id_of_mem_recsFor _ _ _ _ _ _ hfr]
      have h2 : ((rest.flatMap (recsFor minSize labelFn mask structs)).filter
          fun fr => fr.region_id == i) = [] := by
        rw [List.filter_eq_nil_iff]
        intro fr hfr
        rw [List.mem_flatMap] at hfr
        obtain ⟨j', hj', hfr'⟩ := hfr
        have hid := region_id_of_mem_recsFor _ _ _ _ _ _ hfr'
        simp only [hid, beq_iff_eq, decide_eq_true_eq]
        intro h
        exact hnd.1 (h ▸ hj')
      rw [h1, h2, List.append_nil]
    · have hji : j ≠ i := fun h => hnd.1 (h ▸ hi')
      have h1 : ((recsFor minSize labelFn mask structs j).filter
          fun fr => fr.region_id == i) = [] := by
        rw [List.filter_eq_nil_iff]
        intro fr hfr
        have hid := region_id_of_mem_recsFor _ _ _ _ _ _ hfr
        simp [hid, hji]
      rw [h1, List.nil_append]
      exact ih hnd.2 i hi'

theorem countP_eq_of_getD {α β : Type} (p : α → Bool) (q : β → Bool)
    (d1 : α) (d2 : β) : ∀ (l1 : List α) (l2 : List β),
    l1.length = l2.length →
    (∀ k, k < l1.length → p (l1.getD k d1) = q (l2.getD k d2)) →
    l1.countP p = l2.countP q := by
  intro l1
  induction l1 with
  | nil =>
    intro l2 hlen _
    cases l2 with
    | nil => simp
    | cons b l2' => simp at hlen
  | cons a l1' ih =>
    intro l2 hlen hpt
    cases l2 with
    | nil => simp at hlen
    | cons b l2' =>
      rw [List.countP_cons, List.countP_cons]
      have h0 := hpt 0 (by simp)
      simp only [List.getD_cons_zero] at h0
      have hrest := ih l2' (by simpa using hlen) fun k hk => by
        simpa [List.getD_cons_succ] using
          hpt (k + 1) (by simpa using Nat.succ_lt_succ hk)
      rw [hrest, h0]

/-- Claim C5: for every region ID processed by `remove_small_fragments`,
the sum of the recorded fragment voxel counts for that ID equals the
total number of voxels carrying that ID in the input mask before
filtering. -/
theorem fragment_size_sums (mask : List Nat) (minSize : Nat)
    (labelFn : List Bool → List Nat × Nat) (hV : ValidLabel labelFn)
    (atlas : Atlas) :
    ∀ i ∈ regionIdsOf mask,
      (((remove_small_fragments mask minSize labelFn atlas).2.filter
          fun fr => fr.region_id == i).map
        fun fr => fr.fragment_size_voxels).sum = mask.count i := by
  intro i hi
  rw [rsf_snd,
    filter_flatMap_recsFor minSize labelFn mask atlas.structsList
      (regionIdsOf mask) (nodup_regionIdsOf mask) i hi]
  have hmap : ((recsFor minSize labelFn mask atlas.structsList i).map
      fun fr => fr.fragment_size_voxels) =
      componentSizes (regionLabeled labelFn mask i) := by
    rw [recsFor, List.map_map]
    have hcomp : ((fun fr : FragmentRec => fr.fragment_size_voxels) ∘
        fun p : Nat × Nat =>
          (⟨i, idToName atlas.structsList i, p.1 + 1, p.2,
            decide (p.2 < minSize)⟩ : FragmentRec)) =
        (Prod.snd : Nat × Nat → Nat) := rfl
    rw [hcomp, List.enum_map_snd]
  rw [hmap, sum_componentSizes]
  have hbm := hV (mask.map fun v => v == i)
  have hlen : (regionLabeled labelFn mask i).length =
      (mask.map fun v => v == i).length := by
    rw [regionLabeled, hbm.1]
  have hstep : (regionLabeled labelFn mask i).countP
      (fun v => decide (v ≠ 0)) =
      (mask.map fun v => v == i).countP (fun b => b) := by
    apply countP_eq_of_getD _ _ 0 false _ _ hlen
    intro k hk
    have hk' : k < (mask.map fun v => v == i).length := by omega
    have hiff := hbm.2.1 k hk'
    show decide ((regionLabeled labelFn mask i).getD k 0 ≠ 0) =
      (mask.map fun v => v == i).getD k false
    cases hb : (mask.map fun v => v == i).getD k false with
    | true =>
      exact decide_eq_true (hiff.mpr hb)
    | false =>
      refine decide_eq_false fun hcon => ?_
      have hcontr := hiff.mp hcon
      rw [hb] at hcontr
      exact Bool.noConfusion hcontr
  rw [hstep, List.countP_map, List.count_eq_countP]
  rfl

theorem foldr_max_le_of_forall (c : Nat) : ∀ (l : List Nat),
    (∀ v ∈ l, v ≤ c) → l.foldr max 0 ≤ c := by
  intro l
  induction l with
  | nil => intro _; simp
  | cons a tl ih =>
    intro hb
    simp only [List.foldr_cons]
    have h1 : a ≤ c := hb a (List.mem_cons_self _ _)
    have h2 := ih fun v hv => hb v (List.mem_cons_of_mem _ hv)
    omega

theorem validLabel_oneCompLabel : ValidLabel oneCompLabel := by
  intro bm
  refine ⟨by simp [oneCompLabel], ?_, ?_⟩
  · intro k hk
    show ((bm.map fun b => if b then 1 else 0).getD k 0 ≠ 0) ↔
      bm.getD k false = true
    rw [getD_map_of_lt _ _ _ _ false hk]
    cases hb : bm.getD k false <;> simp [hb]
  · intro j h1 h2
    show j ∈ bm.map fun b => if b then 1 else 0
    have hle : (bm.map fun b => if b then 1 else 0).foldr max 0 ≤ 1 := by
      apply foldr_max_le_of_forall
      intro v hv
      rw [List.mem_map] at hv
      obtain ⟨b, _, hb⟩ := hv
      cases b <;> simp at hb <;> omega
    have h2' : j ≤ (bm.map fun b => if b then 1 else 0).foldr max 0 := h2
    have hj : j = 1 := by omega
    subst hj
    rcases foldr_max_zero_or_mem (bm.map fun b => if b then 1 else 0)
      with h | h
    · omega
    · have hmax : (bm.map fun b => if b then 1 else 0).foldr max 0 = 1 := by
        omega
      rwa [hmax] at h

/-- A minimal concrete atlas for instantiating theorems on concrete
inputs. -/
def tinyAtlas : Atlas :=
  ⟨fun _ => 1, fun _ => [], RTree.node 0 "root" RForest.nil, []⟩

/-- Witness for C5 on a concrete mask: the one region id 5 has two voxels
in the mask and the recorded fragment sizes sum to 2. -/
theorem fragment_size_sums_witness :
    (((remove_small_fragments [5, 0, 5] 3 oneCompLabel tinyAtlas).2.filter
        fun fr => fr.region_id == 5).map
      fun fr => fr.fragment_size_voxels).sum =
      ([5, 0, 5] : List Nat).count 5 :=
  fragment_size_sums [5, 0, 5] 3 oneCompLabel validLabel_oneCompLabel
    tinyAtlas 5 (by decide)

theorem mem_enum_iff_getD (l : List Nat) (p : Nat × Nat) :
    p ∈ l.enum ↔ p.1 < l.length ∧ l.getD p.1 0 = p.2 := by
  rw [mem_enum_iff]
  constructor
  · rintro ⟨h, he⟩
    exact ⟨h, by rw [List.getD_eq_getElem _ _ h]; exact he⟩
  · rintro ⟨h, he⟩
    exact ⟨h, by rw [← List.getD_eq_getElem _ _ h]; exact he⟩

theorem label_nonzero_iff (labelFn : List Bool → List Nat × Nat)
    (hV : ValidLabel labelFn) (mask : List Nat) (i k : Nat)
    (hk : k < mask.length) :
    (regionLabeled labelFn mask i).getD k 0 ≠ 0 ↔ mask.getD k 0 = i := by
  have hbm := hV (mask.map fun v => v == i)
  have hk' : k < (mask.map fun v => v == i).length := by simpa using hk
  have hiff := hbm.2.1 k hk'
  rw [getD_map_of_lt (fun v => v == i) mask k false 0 hk] at hiff
  constructor
  · intro h
    exact beq_iff_eq.mp (hiff.mp h)
  · intro h
    exact hiff.mpr (beq_iff_eq.mpr h)

theorem pairs_recsFor (minSize : Nat) (labelFn : List Bool → List Nat × Nat)
    (mask : List Nat) (structs : List AtlasStruct) (i : Nat) :
    ((recsFor minSize labelFn mask structs i).map
      fun fr => (fr.region_id, fr.fragment_index)) =
    (componentSizes (regionLabeled labelFn mask i)).enum.map
      fun p => (i, p.1 + 1) := by
  rw [recsFor, List.map_map]
  rfl

theorem nodup_pairs_recsFor (minSize : Nat)
    (labelFn : List Bool → List Nat × Nat) (mask : List Nat)
    (structs : List AtlasStruct) (i : Nat) :
    ((recsFor minSize labelFn mask structs i).map
      fun fr => (fr.region_id, fr.fragment_index)).Nodup := by
  rw [pairs_recsFor]
  apply List.Nodup.of_map Prod.snd
  rw [List.map_map]
  have hcomp : (Prod.snd ∘ fun p : Nat × Nat => (i, p.1 + 1)) =
      ((fun x => x + 1) ∘ (Prod.fst : Nat × Nat → Nat)) := rfl
  rw [hcomp, ← List.map_map, List.enum_map_fst]
  exact (List.nodup_range _).map fun a b h => by omega

theorem rsf_pairs_nodup_aux (minSize : Nat)
    (labelFn : List Bool → List Nat × Nat) (mask : List Nat)
    (structs : List AtlasStruct) : ∀ (ids : List Nat), ids.Nodup →
    ((ids.flatMap (recsFor minSize labelFn mask structs)).map
      fun fr => (fr.region_id, fr.fragment_index)).Nodup := by
  intro ids
  induction ids with
  | nil => intro _; simp
  | cons i rest ih =>
    intro hnd
    rw [List.nodup_cons] at hnd
    rw [List.flatMap_cons, List.map_append]
    refine List.Nodup.append (nodup_pairs_recsFor _ _ _ _ _) (ih hnd.2) ?_
    intro x hx hx'
    rw [List.mem_map] at hx
    obtain ⟨fr, hfr, hfx⟩ := hx
    have hfr1 : fr.region_id = i :=
      region_id_of_mem_recsFor _ _ _ _ _ _ hfr
    rw [List.mem_map] at hx'
    obtain ⟨fr', hfr', hfx'⟩ := hx'
    rw [List.mem_flatMap] at hfr'
    obtain ⟨j', hj', hfr''⟩ := hfr'
    have hfr2 : fr'.region_id = j' :=
      region_id_of_mem_recsFor _ _ _ _ _ _ hfr''
    have hx1 : x.1 = i := by rw [← hfx, hfr1]
    have hx2 : x.1 = j' := by rw [← hfx', hfr2]
    exact hnd.1 (by rw [← hx2, hx1] at hj'; exact hj')

theorem countP_index_recsFor (minSize : Nat)
    (labelFn : List Bool → List Nat × Nat) (mask : List Nat)
    (structs : List AtlasStruct) (i j : Nat) (h1 : 1 ≤ j)
    (h2 : j ≤ (regionLabeled labelFn mask i).foldr max 0) :
    (recsFor minSize labelFn mask structs i).countP
      (fun fr => fr.fragment_index == j) = 1 := by
  rw [recsFor, List.countP_map]
  have hcomp : ((fun fr : FragmentRec => fr.fragment_index == j) ∘
      fun p : Nat × Nat =>
        (⟨i, idToName structs i, p.1 + 1, p.2,
          decide (p.2 < minSize)⟩ : FragmentRec)) =
      ((fun x => x + 1 == j) ∘ (Prod.fst : Nat × Nat → Nat)) := rfl
  rw [hcomp, ← List.countP_map, List.enum_map_fst]
  have hpt : ∀ x ∈ List.range
      (componentSizes (regionLabeled labelFn mask i)).length,
      ((fun x => x + 1 == j) x = true ↔ (fun x => x == j - 1) x = true) := by
    intro x _
    simp only [beq_iff_eq]
    omega
  rw [List.countP_congr hpt, ← List.count_eq_countP]
  apply List.count_eq_one_of_mem (List.nodup_range _)
  rw [List.mem_range, sizes_length]
  omega

theorem countP_pair_flatMap (minSize : Nat)
    (labelFn : List Bool → List Nat × Nat) (mask : List Nat)
    (structs : List AtlasStruct) (ids : List Nat) (hnd : ids.Nodup)
    (i : Nat) (hi : i ∈ ids) (j : Nat) (h1 : 1 ≤ j)
    (h2 : j ≤ (regionLabeled labelFn mask i).foldr max 0) :
    (ids.flatMap (recsFor minSize labelFn mask structs)).countP
      (fun fr => fr.region_id == i && fr.fragment_index == j) = 1 := by
  have hfilter := List.countP_filter
    (fun fr : FragmentRec => fr.fragment_index == j)
    (fun fr : FragmentRec => fr.region_id == i)
    (ids.flatMap (recsFor minSize labelFn mask structs))
  rw [filter_flatMap_recsFor minSize labelFn mask structs ids hnd i hi]
    at hfilter
  rw [countP_index_recsFor minSize labelFn mask structs i j h1 h2]
    at hfilter
  rw [List.countP_congr
    (fun fr _ => by
      show (fr.region_id == i && fr.fragment_index == j) = true ↔
        (fr.fragment_index == j && fr.region_id == i) = true
      rw [Bool.and_comm])]
  exact hfilter.symm

theorem fields_of_mem_recsFor (minSize : Nat)
    (labelFn : List Bool → List Nat × Nat) (mask : List Nat)
    (structs : List AtlasStruct) (i : Nat) (fr : FragmentRec)
    (hfr : fr ∈ recsFor minSize labelFn mask structs i) :
    fr.fragment_size_voxels =
      (regionLabeled labelFn mask i).count fr.fragment_index ∧
    fr.removed = decide
      ((regionLabeled labelFn mask i).count fr.fragment_index <
        minSize) := by
  rw [recsFor, List.mem_map] at hfr
  obtain ⟨p, hp, hmk⟩ := hfr
  rw [mem_enum_iff_getD] at hp
  obtain ⟨hplen, hpval⟩ := hp
  subst hmk
  show p.2 = (regionLabeled labelFn mask i).count (p.1 + 1) ∧
    decide (p.2 < minSize) = decide
      ((regionLabeled labelFn mask i).count (p.1 + 1) < minSize)
  have hM : p.1 < (regionLabeled labelFn mask i).foldr max 0 := by
    rw [← sizes_length]
    exact hplen
  have hcount := sizes_getD (regionLabeled labelFn mask i) (p.1 + 1)
    (by omega) (by omega)
  have hval : p.2 = (regionLabeled labelFn mask i).count (p.1 + 1) := by
    rw [← hcount]
    have hidx : p.1 + 1 - 1 = p.1 := by omega
    rw [hidx, hpval]
  exact ⟨hval, by rw [hval]⟩

/-- Claim C6: in `remove_small_fragments`, for every connected component
(label j of region id i): its voxels are zeroed in the output and its
record has removed = true exactly when its voxel count is strictly below
`min_fragment_size`, otherwise its voxels are unchanged and
removed = false; exactly one record is emitted per component, and no two
records share the same (region ID, component index) pair. -/
theorem fragment_component_records (mask : List Nat) (minSize : Nat)
    (labelFn : List Bool → List Nat × Nat) (hV : ValidLabel labelFn)
    (atlas : Atlas) :
    ((remove_small_fragments mask minSize labelFn atlas).2.map
        fun fr => (fr.region_id, fr.fragment_index)).Nodup ∧
    (∀ i ∈ regionIdsOf mask, ∀ j, 1 ≤ j →
      j ≤ (regionLabeled labelFn mask i).foldr max 0 →
      ((remove_small_fragments mask minSize labelFn atlas).2.countP
          fun fr => fr.region_id == i && fr.fragment_index == j) = 1 ∧
      (∀ fr ∈ (remove_small_fragments mask minSize labelFn atlas).2,
        fr.region_id = i → fr.fragment_index = j →
          fr.fragment_size_voxels =
            (regionLabeled labelFn mask i).count j ∧
          fr.removed =
            decide ((regionLabeled labelFn mask i).count j < minSize)) ∧
      (∀ k, k < mask.length →
        (regionLabeled labelFn mask i).getD k 0 = j →
        (remove_small_fragments mask minSize labelFn atlas).1.getD k 0 =
          if (regionLabeled labelFn mask i).count j < minSize then 0
          else mask.getD k 0)) := by
  constructor
  · rw [rsf_snd]
    exact rsf_pairs_nodup_aux minSize labelFn mask atlas.structsList
      (regionIdsOf mask) (nodup_regionIdsOf mask)
  · intro i hi j h1 h2
    refine ⟨?_, ?_, ?_⟩
    · rw [rsf_snd]
      exact countP_pair_flatMap minSize labelFn mask atlas.structsList
        (regionIdsOf mask) (nodup_regionIdsOf mask) i hi j h1 h2
    · intro fr hfr hr hj
      rw [rsf_snd, List.mem_flatMap] at hfr
      obtain ⟨i', hi', hfr'⟩ := hfr
      have hid : fr.region_id = i' :=
        region_id_of_mem_recsFor _ _ _ _ _ _ hfr'
      have hii : i' = i := by rw [← hid, hr]
      subst hii
      have hf := fields_of_mem_recsFor minSize labelFn mask
        atlas.structsList i' fr hfr'
      rw [hj] at hf
      exact hf
    · intro k hk hlab
      rw [rsf_fst_getD mask minSize labelFn hV atlas k hk]
      by_cases hsm : (regionLabeled labelFn mask i).count j < minSize
      · have hex : ∃ i' ∈ regionIdsOf mask,
            ∃ p ∈ (componentSizes (regionLabeled labelFn mask i')).enum,
              p.2 < minSize ∧
                (regionLabeled labelFn mask i').getD k 0 = p.1 + 1 := by
          refine ⟨i, hi,
            ⟨(j - 1,
              (componentSizes (regionLabeled labelFn mask i)).getD
                (j - 1) 0), ?_, ?_, ?_⟩⟩
          · rw [mem_enum_iff_getD]
            exact ⟨by rw [sizes_length]; omega, rfl⟩
          · show (componentSizes (regionLabeled labelFn mask i)).getD
              (j - 1) 0 < minSize
            rw [sizes_getD _ j h1 h2]
            exact hsm
          · show (regionLabeled labelFn mask i).getD k 0 = (j - 1) + 1
            rw [hlab]
            omega
        rw [if_pos hex, if_pos hsm]
      · have hnex : ¬ ∃ i' ∈ regionIdsOf mask,
            ∃ p ∈ (componentSizes (regionLabeled labelFn mask i')).enum,
              p.2 < minSize ∧
                (regionLabeled labelFn mask i').getD k 0 = p.1 + 1 := by
          rintro ⟨i', hi', p, hp, hpmin, hplab⟩
          have hne' : (regionLabeled labelFn mask i').getD k 0 ≠ 0 := by
            rw [hplab]
            omega
          have hmk' := (label_nonzero_iff labelFn hV mask i' k hk).mp hne'
          have hne : (regionLabeled labelFn mask i).getD k 0 ≠ 0 := by
            rw [hlab]
            omega
          have hmk := (label_nonzero_iff labelFn hV mask i k hk).mp hne
          have hii : i' = i := by rw [← hmk', ← hmk]
          subst hii
          rw [hlab] at hplab
          rw [mem_enum_iff_getD] at hp
          obtain ⟨hplen, hpval⟩ := hp
          have hc : p.2 = (regionLabeled labelFn mask i').count j := by
            rw [← sizes_getD (regionLabeled labelFn mask i') j h1 h2,
              show j - 1 = p.1 from by omega]
            exact hpval.symm
          exact hsm (hc ▸ hpmin)
        rw [if_neg hnex, if_neg hsm]

/-- Witness for C6 on a concrete mask: the single component of region 5
has 2 < 3 voxels, so there is exactly one record for (5, 1) and voxel 0
is zeroed. -/
theorem fragment_component_records_witness :
    ((remove_small_fragments [5, 0, 5] 3 oneCompLabel tinyAtlas).2.countP
        fun fr => fr.region_id == 5 && fr.fragment_index == 1) = 1 ∧
    (remove_small_fragments [5, 0, 5] 3 oneCompLabel tinyAtlas).1.getD 0 0 =
      (if (regionLabeled oneCompLabel [5, 0, 5] 5).count 1 < 3 then 0
       else ([5, 0, 5] : List Nat).getD 0 0) := by
  have h := fragment_component_records [5, 0, 5] 3 oneCompLabel
    validLabel_oneCompLabel tinyAtlas
  have h5 := h.2 5 (by decide) 1 (by decide) (by decide)
  exact ⟨h5.1, h5.2.2 0 (by decide) (by decide)⟩

/-! ## create_label_mapping -/

/-- One row of the Label Mapping Table. -/
structure LabelRow where
  region_id : Nat
  region_name : String
  region_acronym : String
deriving DecidableEq, Repr

/-- `{s["id"]: {"name": ..., "acronym": ...} for s in
atlas.structures.values()}` looked up at `i` (a dict comprehension: the
last entry with a given id wins). -/
def lookupInfo (structs : List AtlasStruct) (i : Nat) :
    Option (String × String) :=
  ((structs.filter fun s => s.id == i).map fun s =>
    (s.name, s.acronym)).getLast?

/-- Python dict membership/lookup for `new_id_to_old_id` (last binding
wins). -/
def dictLookup (d : List (Nat × Nat)) (k : Nat) : Option Nat :=
  ((d.filter fun p => p.1 == k).map Prod.snd).getLast?

/-- The loop body of `create_label_mapping` for one nonzero final id:
direct atlas lookup first, then the new-to-old table with the
`Remapped_` fallback, then the `Unknown_` fallback. -/
def rowFor (structs : List AtlasStruct) (newToOld : List (Nat × Nat))
    (rid : Nat) : LabelRow :=
  match lookupInfo structs rid with
  | some info => ⟨rid, info.1, info.2⟩
  | none =>
    match dictLookup newToOld rid with
    | some oldId =>
      match lookupInfo structs oldId with
      | some info => ⟨rid, info.1, info.2⟩
      | none => ⟨rid, "Remapped_" ++ toString oldId,
          "Remapped_" ++ toString oldId⟩
    | none => ⟨rid, "Unknown_" ++ toString rid,
        "Unknown_" ++ toString rid⟩

/-- `create_label_mapping(mask, atlas, new_id_to_old_id)`: iterate the
distinct final ids, skip 0, and append one row each. -/
def create_label_mapping (mask : List Nat) (atlas : Atlas)
    (newToOld : List (Nat × Nat)) : List LabelRow :=
  (uniqueVals mask).foldl
    (fun rows rid =>
      if rid = 0 then rows
      else rows ++ [rowFor atlas.structsList newToOld rid])
    []

theorem foldl_skip_zero {α : Type} (f : Nat → α) : ∀ (l : List Nat)
    (acc : List α),
    (l.foldl (fun rows rid => if rid = 0 then rows else rows ++ [f rid])
      acc) = acc ++ (l.filter fun rid => decide (rid ≠ 0)).map f := by
  intro l
  induction l with
  | nil => intro acc; simp
  | cons a tl ih =>
    intro acc
    rw [List.foldl_cons, ih]
    by_cases h : a = 0
    · simp [h]
    · simp [h]

theorem clm_eq_map (mask : List Nat) (atlas : Atlas)
    (newToOld : List (Nat × Nat)) :
    create_label_mapping mask atlas newToOld =
      ((uniqueVals mask).filter fun rid => decide (rid ≠ 0)).map
        (rowFor atlas.structsList newToOld) := by
  rw [create_label_mapping, foldl_skip_zero]
  simp

theorem rowFor_region_id (structs : List AtlasStruct)
    (newToOld : List (Nat × Nat)) (rid : Nat) :
    (rowFor structs newToOld rid).region_id = rid := by
  cases hl : lookupInfo structs rid with
  | some info => simp [rowFor, hl]
  | none =>
    cases hd : dictLookup newToOld rid with
    | some oldId =>
      cases hl2 : lookupInfo structs oldId with
      | some info2 => simp [rowFor, hl, hd, hl2]
      | none => simp [rowFor, hl, hd, hl2]
    | none => simp [rowFor, hl, hd]

/-- Claim C9: the Label Mapping Table produced by `create_label_mapping`
contains exactly one row for every distinct nonzero ID present in the
final mask, and no row for 0 or for any ID not present in the mask. -/
theorem label_mapping_row_count (mask : List Nat) (atlas : Atlas)
    (newToOld : List (Nat × Nat)) (i : Nat) :
    ((create_label_mapping mask atlas newToOld).map
      fun r => r.region_id).count i =
      if i ≠ 0 ∧ i ∈ mask then 1 else 0 := by
  rw [clm_eq_map, List.map_map]
  have hcomp : ((fun r : LabelRow => r.region_id) ∘
      rowFor atlas.structsList newToOld) = id := by
    funext rid
    exact rowFor_region_id atlas.structsList newToOld rid
  rw [hcomp, List.map_id]
  by_cases h0 : i = 0
  · subst h0
    rw [if_neg (by simp)]
    apply List.count_eq_zero_of_not_mem
    intro hmem
    rw [List.mem_filter] at hmem
    simp at hmem
  · by_cases hm : i ∈ mask
    · rw [if_pos ⟨h0, hm⟩]
      exact List.count_eq_one_of_mem ((nodup_uniqueVals mask).filter _)
        (List.mem_filter.mpr ⟨mem_uniqueVals.mpr hm, by simp [h0]⟩)
    · rw [if_neg (by tauto)]
      apply List.count_eq_zero_of_not_mem
      intro hmem
      rw [List.mem_filter, mem_uniqueVals] at hmem
      exact hm hmem.1

/-- A concrete atlas whose hierarchy has entries for ids 1 and 500, used
to exhibit the lookup-precedence behavior of `create_label_mapping`. -/
def c1Atlas : Atlas :=
  ⟨fun _ => 1, fun _ => [], RTree.node 0 "root" RForest.nil,
    [⟨1, "A", "a"⟩, ⟨500, "B", "b"⟩]⟩

/-- Counterexample to claim C1 as stated: id 1 is a key of
`new_id_to_old_id` (it was assigned when 500 was remapped), yet the code
resolves it by direct lookup of 1 in the hierarchy, giving name "A" -
not through old id 500, which would give name "B". -/
theorem label_mapping_counterexample :
    create_label_mapping [1] c1Atlas [(1, 500)] =
      [⟨1, "A", "a"⟩] ∧
    create_label_mapping [1] c1Atlas [(1, 500)] ≠
      [⟨1, "B", "b"⟩] := by
  constructor
  · rfl
  · decide

/-- Claim C1 (amended): for every distinct nonzero ID of the final mask,
`create_label_mapping` resolves its name and acronym by direct hierarchy
lookup whenever the ID itself has a hierarchy entry - even when the ID is
a key of `new_id_to_old_id`; only an ID without a direct hierarchy entry
is resolved through the new-to-old table followed by hierarchy lookup of
the old ID (with the `Remapped_` placeholder when the old ID resolves to
nothing). -/
theorem label_mapping_resolution (mask : List Nat) (atlas : Atlas)
    (newToOld : List (Nat × Nat)) (rid : Nat) (h0 : rid ≠ 0)
    (hm : rid ∈ mask) :
    (∀ nm ac, lookupInfo atlas.structsList rid = some (nm, ac) →
      (⟨rid, nm, ac⟩ : LabelRow) ∈
        create_label_mapping mask atlas newToOld) ∧
    (lookupInfo atlas.structsList rid = none →
      ∀ oldId, dictLookup newToOld rid = some oldId →
        (∀ nm ac, lookupInfo atlas.structsList oldId = some (nm, ac) →
          (⟨rid, nm, ac⟩ : LabelRow) ∈
            create_label_mapping mask atlas newToOld) ∧
        (lookupInfo atlas.structsList oldId = none →
          (⟨rid, "Remapped_" ++ toString oldId,
            "Remapped_" ++ toString oldId⟩ : LabelRow) ∈
            create_label_mapping mask atlas newToOld)) := by
  have hmem : rowFor atlas.structsList newToOld rid ∈
      create_label_mapping mask atlas newToOld := by
    rw [clm_eq_map]
    exact List.mem_map_of_mem _
      (List.mem_filter.mpr ⟨mem_uniqueVals.mpr hm, by simp [h0]⟩)
  refine ⟨?_, ?_⟩
  · intro nm ac hl
    have hrow : rowFor atlas.structsList newToOld rid =
        ⟨rid, nm, ac⟩ := by simp [rowFor, hl]
    rwa [hrow] at hmem
  · intro hl oldId hd
    refine ⟨?_, ?_⟩
    · intro nm ac hl2
      have hrow : rowFor atlas.structsList newToOld rid =
          ⟨rid, nm, ac⟩ := by simp [rowFor, hl, hd, hl2]
      rwa [hrow] at hmem
    · intro hl2
      have hrow : rowFor atlas.structsList newToOld rid =
          ⟨rid, "Remapped_" ++ toString oldId,
            "Remapped_" ++ toString oldId⟩ := by
        simp [rowFor, hl, hd, hl2]
      rwa [hrow] at hmem

/-- Witness for the amended C1: id 1 is a key of the table yet resolves
directly to ("A", "a"). -/
theorem label_mapping_resolution_witness :
    (⟨1, "A", "a"⟩ : LabelRow) ∈
      create_label_mapping [1] c1Atlas [(1, 500)] := by
  have h := label_mapping_resolution [1] c1Atlas [(1, 500)] 1
    (by decide) (by decide)
  exact h.1 "A" "a" (by rfl)

/-! ## Idempotence of flatten_regions -/

/-- The cumulative effect of a replacement sequence on one voxel value. -/
def valFold (pairs : List (Nat × Nat)) (v : Nat) : Nat :=
  pairs.foldl (fun v p => replacePair p v) v

theorem applyPairs_eq_map : ∀ (pairs : List (Nat × Nat)) (m : List Nat),
    applyPairs pairs m = m.map (valFold pairs) := by
  intro pairs
  induction pairs with
  | nil =>
    intro m
    have h : valFold ([] : List (Nat × Nat)) = id := funext fun _ => rfl
    show m = m.map (valFold [])
    rw [h, List.map_id]
  | cons p ps ih =>
    intro m
    show applyPairs ps (m.map (replacePair p)) = _
    rw [ih, List.map_map]
    rfl

/-- The ids of a region's descendants. -/
def descIds (atlas : Atlas) (a : String) : List Nat :=
  (atlas.descendants a).map atlas.idOf

/-- One region's flattening effect on a value, as a single conditional. -/
def regionFold (atlas : Atlas) (regionAcronyms : List String) (v : Nat) :
    Nat :=
  regionAcronyms.foldl
    (fun v a => if v ∈ descIds atlas a then atlas.idOf a else v) v

theorem valFold_no_match : ∀ (pairs : List (Nat × Nat)) (v : Nat),
    v ∉ pairs.map Prod.fst → valFold pairs v = v := by
  intro pairs
  induction pairs with
  | nil => intro v _; rfl
  | cons p ps ih =>
    intro v hv
    rw [List.map_cons, List.mem_cons] at hv
    push_neg at hv
    show valFold ps (replacePair p v) = v
    rw [replacePair, if_neg hv.1]
    exact ih v hv.2

theorem valFold_region_block (atlas : Atlas) (a : String) :
    ∀ (ds : List String) (v : Nat),
    atlas.idOf a ∉ ds.map atlas.idOf →
    valFold (ds.map fun d => (atlas.idOf d, atlas.idOf a)) v =
      if v ∈ ds.map atlas.idOf then atlas.idOf a else v := by
  intro ds
  induction ds with
  | nil => intro v _; simp [valFold]
  | cons d ds' ih =>
    intro v hno
    rw [List.map_cons, List.mem_cons] at hno
    push_neg at hno
    show valFold (ds'.map fun d => (atlas.idOf d, atlas.idOf a))
      (replacePair (atlas.idOf d, atlas.idOf a) v) = _
    by_cases hv : v = atlas.idOf d
    · rw [replacePair, if_pos hv]
      have hfst : atlas.idOf a ∉
          ((ds'.map fun d => (atlas.idOf d, atlas.idOf a)).map
            Prod.fst) := by
        rw [List.map_map]
        exact hno.2
      rw [valFold_no_match _ _ hfst]
      rw [List.map_cons]
      rw [if_pos (List.mem_cons.mpr (Or.inl hv))]
    · rw [replacePair, if_neg hv, ih v hno.2, List.map_cons]
      by_cases hmem : v ∈ ds'.map atlas.idOf
      · rw [if_pos hmem, if_pos (List.mem_cons.mpr (Or.inr hmem))]
      · rw [if_neg hmem,
          if_neg (by rw [List.mem_cons]; push_neg; exact ⟨hv, hmem⟩)]

theorem valFold_flatPairs (atlas : Atlas)
    (H3 : ∀ a, atlas.idOf a ∉ descIds atlas a) :
    ∀ (regionAcronyms : List String) (v : Nat),
    valFold (flatPairs atlas regionAcronyms) v =
      regionFold atlas regionAcronyms v := by
  intro L
  induction L with
  | nil => intro v; rfl
  | cons a L' ih =>
    intro v
    rw [flatPairs, List.flatMap_cons]
    show valFold (((atlas.descendants a).map fun d =>
        (atlas.idOf d, atlas.idOf a)) ++
      flatPairs atlas L') v = _
    rw [valFold, List.foldl_append]
    have hblock := valFold_region_block atlas a (atlas.descendants a) v
      (H3 a)
    rw [valFold] at hblock
    rw [hblock]
    show valFold (flatPairs atlas L') _ = _
    rw [ih]
    rfl

theorem regionFold_stable_fix (atlas : Atlas) :
    ∀ (L : List String) (w : Nat),
    (∀ a ∈ L, w ∉ descIds atlas a) → regionFold atlas L w = w := by
  intro L
  induction L with
  | nil => intro w _; rfl
  | cons a L' ih =>
    intro w hst
    show regionFold atlas L'
      (if w ∈ descIds atlas a then atlas.idOf a else w) = w
    rw [if_neg (hst a (List.mem_cons_self _ _))]
    exact ih w fun b hb => hst b (List.mem_cons_of_mem _ hb)

theorem regionFold_result_stable (atlas : Atlas)
    (H2 : ∀ a b, atlas.idOf b ∈ descIds atlas a →
      ∀ c ∈ descIds atlas b, c ∈ descIds atlas a)
    (H3 : ∀ a, atlas.idOf a ∉ descIds atlas a) :
    ∀ (L : List String) (v : Nat), ∀ a ∈ L,
    regionFold atlas L v ∉ descIds atlas a := by
  intro L
  induction L using List.reverseRecOn with
  | nil => intro v a ha; simp at ha
  | append_singleton L' r ih =>
    intro v a ha
    rw [regionFold, List.foldl_append]
    show (if regionFold atlas L' v ∈ descIds atlas r then atlas.idOf r
      else regionFold atlas L' v) ∉ descIds atlas a
    by_cases hw : regionFold atlas L' v ∈ descIds atlas r
    · rw [if_pos hw]
      rcases List.mem_append.mp ha with ha' | ha'
      · intro hcon
        exact ih v a ha' (H2 a r hcon _ hw)
      · rw [List.mem_singleton] at ha'
        subst ha'
        exact H3 a
    · rw [if_neg hw]
      rcases List.mem_append.mp ha with ha' | ha'
      · exact ih v a ha'
      · rw [List.mem_singleton] at ha'
        subst ha'
        exact hw

/-- Claim C7: `flatten_regions` is idempotent: for every mask, atlas and
list of region acronyms, applying it twice with the same arguments yields
the same mask as applying it once.  The atlas is a region hierarchy as
the data model defines it, stated at the level of ids: descendant id
sets are transitively closed and no region's id is among its own
descendants' ids. -/
theorem flatten_regions_idempotent (atlas : Atlas)
    (H2 : ∀ a b, atlas.idOf b ∈ descIds atlas a →
      ∀ c ∈ descIds atlas b, c ∈ descIds atlas a)
    (H3 : ∀ a, atlas.idOf a ∉ descIds atlas a)
    (mask : List Nat) (regionAcronyms : List String) :
    flatten_regions (flatten_regions mask atlas regionAcronyms) atlas
        regionAcronyms =
      flatten_regions mask atlas regionAcronyms := by
  rw [flatten_regions, flatten_regions, applyPairs_eq_map,
    applyPairs_eq_map, List.map_map]
  apply List.map_congr_left
  intro v _
  show valFold (flatPairs atlas regionAcronyms)
    (valFold (flatPairs atlas regionAcronyms) v) = _
  rw [valFold_flatPairs atlas H3, valFold_flatPairs atlas H3]
  exact regionFold_stable_fix atlas regionAcronyms _
    (regionFold_result_stable atlas H2 H3 regionAcronyms v)

/-- A small concrete hierarchy: region P (id 10) has descendants A (11)
and B (12); all other acronyms resolve to id 99 with no descendants. -/
def flatWitnessAtlas : Atlas :=
  ⟨fun a => if a = "P" then 10 else if a = "A" then 11
      else if a = "B" then 12 else 99,
    fun a => if a = "P" then ["A", "B"] else [],
    RTree.node 0 "root" RForest.nil, []⟩

theorem flatWitnessAtlas_closed : ∀ a b,
    flatWitnessAtlas.idOf b ∈ descIds flatWitnessAtlas a →
    ∀ c ∈ descIds flatWitnessAtlas b, c ∈ descIds flatWitnessAtlas a := by
  intro a b hb c hc
  by_cases hbP : b = "P"
  · subst hbP
    by_cases ha : a = "P"
    · subst ha
      simp [flatWitnessAtlas, descIds] at hb
    · simp [flatWitnessAtlas, descIds, ha] at hb
  · simp [flatWitnessAtlas, descIds, hbP] at hc

theorem flatWitnessAtlas_irrefl : ∀ a,
    flatWitnessAtlas.idOf a ∉ descIds flatWitnessAtlas a := by
  intro a
  by_cases ha : a = "P"
  · subst ha
    simp [flatWitnessAtlas, descIds]
  · simp [flatWitnessAtlas, descIds, ha]

/-- Witness for C7: flattening P on the mask [11, 12, 5] (two descendant
voxels and one unrelated voxel); a second application changes nothing. -/
theorem flatten_regions_idempotent_witness :
    flatten_regions (flatten_regions [11, 12, 5] flatWitnessAtlas ["P"])
        flatWitnessAtlas ["P"] =
      flatten_regions [11, 12, 5] flatWitnessAtlas ["P"] :=
  flatten_regions_idempotent flatWitnessAtlas flatWitnessAtlas_closed
    flatWitnessAtlas_irrefl [11, 12, 5] ["P"]

/-! ## Foreground conservation -/

theorem valFold_nonzero_iff : ∀ (pairs : List (Nat × Nat)),
    (∀ p ∈ pairs, p.1 ≠ 0 ∧ p.2 ≠ 0) → ∀ (v : Nat),
    (valFold pairs v ≠ 0 ↔ v ≠ 0) := by
  intro pairs
  induction pairs with
  | nil => intro _ v; exact Iff.rfl
  | cons p ps ih =>
    intro hnz v
    have hp := hnz p (List.mem_cons_self _ _)
    have hps := fun q hq => hnz q (List.mem_cons_of_mem _ hq)
    show (valFold ps (replacePair p v) ≠ 0 ↔ v ≠ 0)
    rw [ih hps]
    rw [replacePair]
    by_cases hv : v = p.1
    · rw [if_pos hv]
      subst hv
      constructor
      · intro _; exact hp.1
      · intro _; exact hp.2
    · rw [if_neg hv]

theorem flatPairs_nonzero (atlas : Atlas) (Hnz : ∀ a, atlas.idOf a ≠ 0)
    (regionAcronyms : List String) :
    ∀ p ∈ flatPairs atlas regionAcronyms, p.1 ≠ 0 ∧ p.2 ≠ 0 := by
  intro p hp
  rw [flatPairs, List.mem_flatMap] at hp
  obtain ⟨a, _, hp'⟩ := hp
  rw [List.mem_map] at hp'
  obtain ⟨d, _, hpd⟩ := hp'
  rw [← hpd]
  exact ⟨Hnz d, Hnz a⟩

theorem countP_nonzero_applyPairs (pairs : List (Nat × Nat))
    (hnz : ∀ p ∈ pairs, p.1 ≠ 0 ∧ p.2 ≠ 0) (mask : List Nat) :
    (applyPairs pairs mask).countP (fun v => decide (v ≠ 0)) =
      mask.countP (fun v => decide (v ≠ 0)) := by
  rw [applyPairs_eq_map, List.countP_map]
  apply List.countP_congr
  intro v _
  show decide (valFold pairs v ≠ 0) = true ↔ decide (v ≠ 0) = true
  simp only [decide_eq_true_eq]
  exact valFold_nonzero_iff pairs hnz v

theorem flattenLevelSteps_nonzero (atlas : Atlas)
    (Hnz : ∀ a, atlas.idOf a ≠ 0) (level : Nat) :
    ∀ (L : List String) (acc pairs : List (Nat × Nat)),
    (L.foldlM
      (fun acc a => do
        let keeps ← get_descendants_of_depth atlas.tree (atlas.idOf a)
          level
        pure (acc ++ keeps.flatMap fun k =>
          (atlas.descendants k).map fun d =>
            (atlas.idOf d, atlas.idOf k)))
      acc = Except.ok pairs) →
    (∀ p ∈ acc, p.1 ≠ 0 ∧ p.2 ≠ 0) →
    ∀ p ∈ pairs, p.1 ≠ 0 ∧ p.2 ≠ 0 := by
  intro L
  induction L with
  | nil =>
    intro acc pairs hfold hacc
    simp only [List.foldlM_nil] at hfold
    cases hfold
    exact hacc
  | cons a L' ih =>
    intro acc pairs hfold hacc
    rw [List.foldlM_cons] at hfold
    cases hkeeps : get_descendants_of_depth atlas.tree (atlas.idOf a)
      level with
    | error e =>
      rw [hkeeps] at hfold
      exact Except.noConfusion hfold
    | ok keeps =>
      rw [hkeeps] at hfold
      refine ih (acc ++ keeps.flatMap fun k =>
        (atlas.descendants k).map fun d =>
          (atlas.idOf d, atlas.idOf k)) pairs hfold ?_
      intro p hp
      rcases List.mem_append.mp hp with hp' | hp'
      · exact hacc p hp'
      · rw [List.mem_flatMap] at hp'
        obtain ⟨k, _, hp''⟩ := hp'
        rw [List.mem_map] at hp''
        obtain ⟨d, _, hpd⟩ := hp''
        rw [← hpd]
        exact ⟨Hnz d, Hnz k⟩

theorem countP_split {α : Type} (p q : α → Bool) : ∀ (l : List α),
    l.countP p = l.countP (fun v => p v && q v) +
      l.countP (fun v => p v && !(q v)) := by
  intro l
  induction l with
  | nil => simp
  | cons a tl ih =>
    rw [List.countP_cons, List.countP_cons, List.countP_cons, ih]
    cases hp : p a <;> cases hq : q a <;> simp [hp, hq] <;> omega

theorem valFold_excludePairs (atlas : Atlas)
    (Hnz : ∀ a, atlas.idOf a ≠ 0) : ∀ (L : List String) (v : Nat),
    valFold (excludePairs atlas L) v =
      if v ∈ L.map atlas.idOf then 0 else v := by
  intro L
  induction L with
  | nil => intro v; simp [valFold, excludePairs]
  | cons a L' ih =>
    intro v
    show valFold (excludePairs atlas L')
      (replacePair (atlas.idOf a, 0) v) = _
    rw [replacePair]
    by_cases hv : v = atlas.idOf a
    · rw [if_pos hv]
      have hno : (0 : Nat) ∉ (excludePairs atlas L').map Prod.fst := by
        rw [excludePairs, List.map_map]
        intro hmem
        rw [List.mem_map] at hmem
        obtain ⟨b, _, hb⟩ := hmem
        exact Hnz b hb
      rw [valFold_no_match _ _ hno, List.map_cons,
        if_pos (List.mem_cons.mpr (Or.inl hv))]
    · rw [if_neg hv, ih v, List.map_cons]
      by_cases hmem : v ∈ L'.map atlas.idOf
      · rw [if_pos hmem, if_pos (List.mem_cons.mpr (Or.inr hmem))]
      · rw [if_neg hmem,
          if_neg (by rw [List.mem_cons]; push_neg; exact ⟨hv, hmem⟩)]

/-- Claim C8: region merging never increases the foreground.  With every
region id in the hierarchy nonzero: `flatten_regions` and
`flatten_descendants_of_level` keep the nonzero-voxel count at most what
it was (in fact both preserve it), and `exclude_regions` decreases it by
exactly the number of voxels carrying the excluded regions' ids. -/
theorem merge_foreground_counts (atlas : Atlas)
    (Hnz : ∀ a, atlas.idOf a ≠ 0) :
    (∀ (mask : List Nat) (regionAcronyms : List String),
      (flatten_regions mask atlas regionAcronyms).countP
          (fun v => decide (v ≠ 0)) ≤
        mask.countP (fun v => decide (v ≠ 0))) ∧
    (∀ (mask : List Nat) (regionAcronyms : List String) (level : Nat)
      (m' : List Nat),
      flatten_descendants_of_level mask atlas regionAcronyms level =
        .ok m' →
      m'.countP (fun v => decide (v ≠ 0)) ≤
        mask.countP (fun v => decide (v ≠ 0))) ∧
    (∀ (mask : List Nat) (regionAcronyms : List String),
      (exclude_regions mask atlas regionAcronyms).countP
          (fun v => decide (v ≠ 0)) +
        mask.countP
          (fun v => decide (v ∈ regionAcronyms.map atlas.idOf)) =
        mask.countP (fun v => decide (v ≠ 0))) := by
  refine ⟨?_, ?_, ?_⟩
  · intro mask L
    rw [flatten_regions,
      countP_nonzero_applyPairs _ (flatPairs_nonzero atlas Hnz L)]
  · intro mask L level m' hok
    rw [flatten_descendants_of_level] at hok
    by_cases hlev : level < 1
    · rw [if_pos hlev] at hok
      exact absurd hok (by simp)
    · rw [if_neg hlev] at hok
      cases hsteps : flattenLevelSteps atlas L level with
      | error e =>
        rw [hsteps] at hok
        exact absurd hok (by simp [Except.map])
      | ok pairs =>
        rw [hsteps] at hok
        simp only [Except.map, Except.ok.injEq] at hok
        subst hok
        have hnzp : ∀ p ∈ pairs, p.1 ≠ 0 ∧ p.2 ≠ 0 :=
          flattenLevelSteps_nonzero atlas Hnz level L [] pairs hsteps
            (by intro p hp; simp at hp)
        rw [countP_nonzero_applyPairs _ hnzp]
  · intro mask L
    rw [exclude_regions, applyPairs_eq_map, List.countP_map]
    have h1 : mask.countP
        ((fun v => decide (v ≠ 0)) ∘ valFold (excludePairs atlas L)) =
        mask.countP (fun v =>
          decide (v ≠ 0) && !(decide (v ∈ L.map atlas.idOf))) := by
      apply List.countP_congr
      intro v _
      show decide (valFold (excludePairs atlas L) v ≠ 0) = true ↔ _
      rw [valFold_excludePairs atlas Hnz L v]
      by_cases hmem : v ∈ L.map atlas.idOf
      · simp [hmem]
      · simp [hmem]
    have h2 : mask.countP
        (fun v => decide (v ∈ L.map atlas.idOf)) =
        mask.countP (fun v =>
          decide (v ≠ 0) && decide (v ∈ L.map atlas.idOf)) := by
      apply List.countP_congr
      intro v _
      by_cases hmem : v ∈ L.map atlas.idOf
      · have hv0 : v ≠ 0 := by
          rw [List.mem_map] at hmem
          obtain ⟨a, _, ha⟩ := hmem
          rw [← ha]
          exact Hnz a
        simp [hmem, hv0]
      · simp [hmem]
    rw [h1, h2]
    rw [countP_split (fun v => decide (v ≠ 0))
      (fun v => decide (v ∈ L.map atlas.idOf)) mask]
    omega

theorem flatWitnessAtlas_nonzero : ∀ a, flatWitnessAtlas.idOf a ≠ 0 := by
  intro a
  show (if a = "P" then 10 else if a = "A" then 11
    else if a = "B" then 12 else 99) ≠ 0
  split
  · decide
  · split
    · decide
    · split
      · decide
      · decide

/-- Witness for C8 on a concrete mask: excluding P removes exactly the
one voxel carrying id 10. -/
theorem merge_foreground_counts_witness :
    (exclude_regions [10, 0, 5] flatWitnessAtlas ["P"]).countP
        (fun v => decide (v ≠ 0)) +
      ([10, 0, 5] : List Nat).countP
        (fun v => decide (v ∈ (["P"] : List String).map
          flatWitnessAtlas.idOf)) =
      ([10, 0, 5] : List Nat).countP fun v => decide (v ≠ 0) :=
  (merge_foreground_counts flatWitnessAtlas flatWitnessAtlas_nonzero).2.2
    [10, 0, 5] ["P"]

/-! ## Depth handling (claim C2) -/

theorem descendF_zero : ∀ (f : RForest) (cur : Nat), 1 ≤ cur →
    descendF 0 cur f = []
  | .nil, _, _ => rfl
  | .cons (.node _ tag cs) rest, cur, h => by
    show (if cur = 0 then [firstWord tag] else descendF 0 (cur + 1) cs) ++
      descendF 0 cur rest = []
    rw [if_neg (by omega), descendF_zero cs (cur + 1) (by omega),
      descendF_zero rest cur h]
    rfl

theorem descendN_zero (t : RTree) : descendN 0 1 t = [] := by
  cases t with
  | node i tag cs => exact descendF_zero cs 1 (by omega)

/-- Counterexample to claim C2 as stated: on a tree whose root (id 10)
has a child, the descendants-at-depth query with depth 0 returns a
result - the empty list - instead of raising an InvalidDepth-style
error. -/
theorem depth_zero_counterexample :
    get_descendants_of_depth
      (RTree.node 10 "root tag" (RForest.cons
        (RTree.node 11 "child tag" RForest.nil) RForest.nil)) 10 0 =
      Except.ok [] := rfl

/-- Claim C2 (amended): `flatten_descendants_of_level` with level < 1
raises before touching the mask, but the standalone descendants-at-depth
query performs no depth validation: with depth 0 it returns the empty
list for any resolvable node (the recursion starts at depth 1, so depth
0 can never match), rather than raising. -/
theorem depth_validation (tree : RTree) (pid : Nat) :
    (∀ (mask : List Nat) (atlas : Atlas) (regionAcronyms : List String)
      (level : Nat), level < 1 →
      flatten_descendants_of_level mask atlas regionAcronyms level =
        .error "Level must be at least 1.") ∧
    (∀ t, findNode pid tree = some t →
      get_descendants_of_depth tree pid 0 = .ok []) := by
  constructor
  · intro mask atlas L level hlev
    rw [flatten_descendants_of_level, if_pos hlev]
  · intro t ht
    unfold get_descendants_of_depth
    rw [ht]
    show Except.ok (descendN 0 1 t) = Except.ok []
    rw [descendN_zero t]

/-- Witness for the amended C2 at a concrete tree and level. -/
theorem depth_validation_witness :
    flatten_descendants_of_level [1, 2] tinyAtlas ["X"] 0 =
      Except.error "Level must be at least 1." ∧
    get_descendants_of_depth (RTree.node 10 "r" RForest.nil) 10 0 =
      Except.ok [] := by
  have h := depth_validation (RTree.node 10 "r" RForest.nil) 10
  exact ⟨h.1 [1, 2] tinyAtlas ["X"] 0 (by decide),
    h.2 (RTree.node 10 "r" RForest.nil) (by rfl)⟩

/-! ## Frame effects (claim C10): a heap of numpy buffers -/

/-- A heap of array buffers: reference `r` denotes cell `r`. -/
structure Heap where
  cells : List (List Nat)

/-- Read the buffer behind reference `r`. -/
def Heap.get (h : Heap) (r : Nat) : List Nat :=
  h.cells.getD r []

/-- Overwrite the buffer behind reference `r` (in-place mutation). -/
def Heap.set (h : Heap) (r : Nat) (v : List Nat) : Heap :=
  ⟨h.cells.set r v⟩

/-- `mask.copy()`: allocate a fresh buffer, return its reference. -/
def Heap.alloc (h : Heap) (v : List Nat) : Heap × Nat :=
  (⟨h.cells ++ [v]⟩, h.cells.length)

theorem Heap.get_set_self (h : Heap) (r : Nat) (v : List Nat)
    (hr : r < h.cells.length) : (h.set r v).get r = v := by
  simp [Heap.get, Heap.set, List.getD_eq_getElem?_getD,
    List.getElem?_set_self, hr]

theorem Heap.get_set_ne (h : Heap) (r q : Nat) (v : List Nat)
    (hq : q ≠ r) : (h.set r v).get q = h.get q := by
  simp [Heap.get, Heap.set, List.getD_eq_getElem?_getD,
    List.getElem?_set_ne (Ne.symm hq)]

theorem Heap.length_set (h : Heap) (r : Nat) (v : List Nat) :
    (h.set r v).cells.length = h.cells.length := by
  simp [Heap.set]

theorem Heap.get_alloc_old (h : Heap) (v : List Nat) (r : Nat)
    (hr : r < h.cells.length) : (h.alloc v).1.get r = h.get r := by
  simp only [Heap.alloc, Heap.get]
  exact List.getD_append _ _ _ _ hr

theorem Heap.get_alloc_new (h : Heap) (v : List Nat) :
    (h.alloc v).1.get (h.alloc v).2 = v := by
  simp only [Heap.alloc, Heap.get]
  rw [List.getD_append_right _ _ _ _ (Nat.le_refl _)]
  simp

theorem Heap.length_alloc (h : Heap) (v : List Nat) :
    (h.alloc v).1.cells.length = h.cells.length + 1 := by
  simp [Heap.alloc]

/-- Apply a sequence of whole-array transformations to cell `r`, one
in-place write per loop iteration. -/
def foldSetF (r : Nat) (fs : List (List Nat → List Nat)) (h : Heap) :
    Heap :=
  fs.foldl (fun hh f => hh.set r (f (hh.get r))) h

/-- The same sequence applied to a pure value. -/
def applyFns (fs : List (List Nat → List Nat)) (m : List Nat) :
    List Nat :=
  fs.foldl (fun m f => f m) m

theorem foldSetF_length (r : Nat) : ∀ (fs : List (List Nat → List Nat))
    (h : Heap), (foldSetF r fs h).cells.length = h.cells.length := by
  intro fs
  induction fs with
  | nil => intro h; rfl
  | cons f fs' ih =>
    intro h
    show (foldSetF r fs' _).cells.length = _
    rw [ih, Heap.length_set]

theorem foldSetF_get_ne (r q : Nat) (hq : q ≠ r) :
    ∀ (fs : List (List Nat → List Nat)) (h : Heap),
    (foldSetF r fs h).get q = h.get q := by
  intro fs
  induction fs with
  | nil => intro h; rfl
  | cons f fs' ih =>
    intro h
    show (foldSetF r fs' _).get q = _
    rw [ih, Heap.get_set_ne _ _ _ _ hq]

theorem foldSetF_get_self (r : Nat) :
    ∀ (fs : List (List Nat → List Nat)) (h : Heap),
    r < h.cells.length →
    (foldSetF r fs h).get r = applyFns fs (h.get r) := by
  intro fs
  induction fs with
  | nil => intro h _; rfl
  | cons f fs' ih =>
    intro h hr
    show (foldSetF r fs' _).get r = applyFns fs' (f (h.get r))
    rw [ih _ (by rw [Heap.length_set]; exact hr),
      Heap.get_set_self _ _ _ hr]

/-- Replacement pairs as in-place array rewrites. -/
def pairFns (pairs : List (Nat × Nat)) : List (List Nat → List Nat) :=
  pairs.map fun p m => m.map (replacePair p)

theorem applyFns_pairFns (pairs : List (Nat × Nat)) (m : List Nat) :
    applyFns (pairFns pairs) m = applyPairs pairs m := by
  rw [applyFns, pairFns, List.foldl_map]
  rfl

/-- `flatten_regions` at the heap level: copy, then mutate only the
copy, then return the copy's reference. -/
def flatten_regions_op (h : Heap) (r : Nat) (atlas : Atlas)
    (regionAcronyms : List String) : Heap × Nat :=
  ((foldSetF (h.alloc (h.get r)).2
      (pairFns (flatPairs atlas regionAcronyms))
      (h.alloc (h.get r)).1),
    (h.alloc (h.get r)).2)

/-- `exclude_regions` at the heap level. -/
def exclude_regions_op (h : Heap) (r : Nat) (atlas : Atlas)
    (regionAcronyms : List String) : Heap × Nat :=
  ((foldSetF (h.alloc (h.get r)).2
      (pairFns (excludePairs atlas regionAcronyms))
      (h.alloc (h.get r)).1),
    (h.alloc (h.get r)).2)

/-- `flatten_descendants_of_level` at the heap level: the level check
fires before the copy is made. -/
def flatten_descendants_of_level_op (h : Heap) (r : Nat) (atlas : Atlas)
    (regionAcronyms : List String) (level : Nat) :
    Except String (Heap × Nat) :=
  if level < 1 then .error "Level must be at least 1."
  else
    match flattenLevelSteps atlas regionAcronyms level with
    | .error e => .error e
    | .ok pairs =>
      .ok ((foldSetF (h.alloc (h.get r)).2 (pairFns pairs)
          (h.alloc (h.get r)).1),
        (h.alloc (h.get r)).2)

/-- The in-place zeroing writes of `remove_small_fragments`, one per
small component, in loop order. -/
def rsfSteps (mask : List Nat) (minSize : Nat)
    (labelFn : List Bool → List Nat × Nat) :
    List (List Nat → List Nat) :=
  (regionIdsOf mask).flatMap fun i =>
    (componentSizes (regionLabeled labelFn mask i)).enum.filterMap
      fun p =>
        if p.2 < minSize then
          some fun cm => List.zipWith
            (fun c lv => if lv = p.1 + 1 then 0 else c) cm
            (regionLabeled labelFn mask i)
        else none

/-- `remove_small_fragments` at the heap level: copy, mutate only the
copy, return the copy's reference together with the fragment records. -/
def remove_small_fragments_op (h : Heap) (r : Nat) (minSize : Nat)
    (labelFn : List Bool → List Nat × Nat) (atlas : Atlas) :
    (Heap × Nat) × List FragmentRec :=
  (((foldSetF (h.alloc (h.get r)).2
        (rsfSteps (h.get r) minSize labelFn)
        (h.alloc (h.get r)).1),
      (h.alloc (h.get r)).2),
    (remove_small_fragments (h.get r) minSize labelFn atlas).2)

/-- The remap loop at the heap level: each iteration writes the rewritten
buffer back to the input reference `r`; no copy is ever made. -/
def remapLoopOp : List Nat → List Nat → Heap → Nat →
    List (Nat × Nat) → List (Nat × Nat) →
    Except String (Heap × Nat × List (Nat × Nat) × List (Nat × Nat))
  | [], _, h, r, rm, rv => .ok (h, r, rm, rv)
  | _ :: _, [], _, _, _, _ =>
    .error "No available uint16 IDs left to assign."
  | oldId :: rest, newId :: availRest, h, r, rm, rv =>
    remapLoopOp rest availRest
      (h.set r ((h.get r).map (replacePair (oldId, newId)))) r
      (rm ++ [(oldId, newId)]) (rv ++ [(newId, oldId)])

/-- `remap_large_values` at the heap level. -/
def remap_large_values_op (h : Heap) (r : Nat) (maxValue : Nat) :
    Except String (Heap × Nat × List (Nat × Nat) × List (Nat × Nat)) :=
  remapLoopOp (largeIds (h.get r) maxValue)
    (availableIds (h.get r) maxValue) h r [] []

theorem applyFns_append (l1 l2 : List (List Nat → List Nat))
    (m : List Nat) :
    applyFns (l1 ++ l2) m = applyFns l2 (applyFns l1 m) := by
  rw [applyFns, applyFns, applyFns, List.foldl_append]

theorem fragStep_fst_applyFns (minSize : Nat) (labeled : List Nat)
    (i : Nat) (nm : String) : ∀ (ps : List (Nat × Nat))
    (acc : List Nat × List FragmentRec),
    (ps.foldl (fragStep minSize labeled i nm) acc).1 =
      applyFns (ps.filterMap fun p =>
        if p.2 < minSize then
          some fun cm => List.zipWith
            (fun c lv => if lv = p.1 + 1 then 0 else c) cm labeled
        else none) acc.1 := by
  intro ps
  induction ps with
  | nil => intro acc; rfl
  | cons p ps' ih =>
    intro acc
    rw [List.foldl_cons, ih]
    by_cases hp : p.2 < minSize
    · rw [List.filterMap_cons]
      simp only [if_pos hp]
      show applyFns _ (fragStep minSize labeled i nm acc p).1 =
        applyFns _ (List.zipWith
          (fun c lv => if lv = p.1 + 1 then 0 else c) acc.1 labeled)
      rw [fragStep, if_pos hp]
    · rw [List.filterMap_cons]
      simp only [if_neg hp]
      show applyFns _ (fragStep minSize labeled i nm acc p).1 =
        applyFns _ acc.1
      rw [fragStep, if_neg hp]

theorem rsf_fst_applyFns (mask : List Nat) (minSize : Nat)
    (labelFn : List Bool → List Nat × Nat) (atlas : Atlas) :
    (remove_small_fragments mask minSize labelFn atlas).1 =
      applyFns (rsfSteps mask minSize labelFn) mask := by
  rw [remove_small_fragments, rsfSteps]
  have hgen : ∀ (ids : List Nat) (acc : List Nat × List FragmentRec),
      ((ids.foldl (fun acc i =>
          processRegion minSize (regionLabeled labelFn mask i) i
            (idToName atlas.structsList i) acc) acc).1 =
        applyFns (ids.flatMap fun i =>
          (componentSizes (regionLabeled labelFn mask i)).enum.filterMap
            fun p =>
              if p.2 < minSize then
                some fun cm => List.zipWith
                  (fun c lv => if lv = p.1 + 1 then 0 else c) cm
                  (regionLabeled labelFn mask i)
              else none) acc.1) := by
    intro ids
    induction ids with
    | nil => intro acc; rfl
    | cons i rest ih =>
      intro acc
      rw [List.foldl_cons, ih, List.flatMap_cons, applyFns_append,
        processRegion, fragStep_fst_applyFns]
  exact hgen (regionIdsOf mask) (mask, [])

theorem remapLoopOp_ok : ∀ (large avail : List Nat) (h : Heap) (r : Nat)
    (rm rv : List (Nat × Nat))
    (out : Heap × Nat × List (Nat × Nat) × List (Nat × Nat)),
    r < h.cells.length →
    remapLoopOp large avail h r rm rv = .ok out →
    ∃ res, remapLoop large avail (h.get r) rm rv = .ok res ∧
      out.2.1 = r ∧ out.1.get r = res.mask ∧
      out.2.2.1 = res.id_remap ∧ out.2.2.2 = res.new_id_to_old_id ∧
      (∀ q, q ≠ r → out.1.get q = h.get q) ∧
      out.1.cells.length = h.cells.length := by
  intro large
  induction large with
  | nil =>
    intro avail h r rm rv out hr hloop
    simp only [remapLoopOp, Except.ok.injEq] at hloop
    subst hloop
    exact ⟨⟨h.get r, rm, rv⟩, rfl, rfl, rfl, rfl, rfl,
      fun q _ => rfl, rfl⟩
  | cons oldId rest ih =>
    intro avail h r rm rv out hr hloop
    cases avail with
    | nil => exact absurd hloop (by simp [remapLoopOp])
    | cons newId availRest =>
      rw [remapLoopOp] at hloop
      obtain ⟨res, hres, hout1, hout2, hout3, hout4, hout5, hout6⟩ :=
        ih availRest _ r _ _ out
          (by rw [Heap.length_set]; exact hr) hloop
      refine ⟨res, ?_, hout1, hout2, hout3, hout4, ?_, ?_⟩
      · rw [remapLoop]
        rw [Heap.get_set_self _ _ _ hr] at hres
        exact hres
      · intro q hq
        rw [hout5 q hq, Heap.get_set_ne _ _ _ _ hq]
      · rw [hout6, Heap.length_set]

theorem fresh_op_facts (h : Heap) (r : Nat) (hr : r < h.cells.length)
    (fs : List (List Nat → List Nat)) :
    (foldSetF (h.alloc (h.get r)).2 fs (h.alloc (h.get r)).1).get r =
      h.get r ∧
    (h.alloc (h.get r)).2 ≠ r ∧
    (foldSetF (h.alloc (h.get r)).2 fs (h.alloc (h.get r)).1).get
      (h.alloc (h.get r)).2 = applyFns fs (h.get r) := by
  have hne : (h.alloc (h.get r)).2 ≠ r := by
    show h.cells.length ≠ r
    omega
  refine ⟨?_, hne, ?_⟩
  · rw [foldSetF_get_ne _ _ (Ne.symm hne)]
    exact Heap.get_alloc_old h (h.get r) r hr
  · rw [foldSetF_get_self _ _ _
      (by rw [Heap.length_alloc]
          show h.cells.length < h.cells.length + 1
          omega)]
    rw [Heap.get_alloc_new]

/-- Claim C10: `flatten_regions`, `flatten_descendants_of_level`,
`exclude_regions` and `remove_small_fragments` each return a freshly
allocated array (the `.copy()`) holding the transformed values and leave
the contents of the input array reference unchanged, whereas
`remap_large_values` performs its rewrites in place on the input array
and returns that same array reference (holding the remapped values). -/
theorem frame_effects (h : Heap) (r : Nat) (hr : r < h.cells.length) :
    (∀ (atlas : Atlas) (L : List String),
      (flatten_regions_op h r atlas L).2 ≠ r ∧
      (flatten_regions_op h r atlas L).1.get r = h.get r ∧
      (flatten_regions_op h r atlas L).1.get
        (flatten_regions_op h r atlas L).2 =
        flatten_regions (h.get r) atlas L) ∧
    (∀ (atlas : Atlas) (L : List String),
      (exclude_regions_op h r atlas L).2 ≠ r ∧
      (exclude_regions_op h r atlas L).1.get r = h.get r ∧
      (exclude_regions_op h r atlas L).1.get
        (exclude_regions_op h r atlas L).2 =
        exclude_regions (h.get r) atlas L) ∧
    (∀ (atlas : Atlas) (L : List String) (level : Nat)
      (out : Heap × Nat),
      flatten_descendants_of_level_op h r atlas L level = .ok out →
      out.2 ≠ r ∧ out.1.get r = h.get r ∧
      flatten_descendants_of_level (h.get r) atlas L level =
        .ok (out.1.get out.2)) ∧
    (∀ (minSize : Nat) (labelFn : List Bool → List Nat × Nat)
      (atlas : Atlas),
      (remove_small_fragments_op h r minSize labelFn atlas).1.2 ≠ r ∧
      (remove_small_fragments_op h r minSize labelFn atlas).1.1.get r =
        h.get r ∧
      (remove_small_fragments_op h r minSize labelFn atlas).1.1.get
        (remove_small_fragments_op h r minSize labelFn atlas).1.2 =
        (remove_small_fragments (h.get r) minSize labelFn atlas).1 ∧
      (remove_small_fragments_op h r minSize labelFn atlas).2 =
        (remove_small_fragments (h.get r) minSize labelFn atlas).2) ∧
    (∀ (maxValue : Nat)
      (out : Heap × Nat × List (Nat × Nat) × List (Nat × Nat)),
      remap_large_values_op h r maxValue = .ok out →
      out.2.1 = r ∧
      ∃ res, remap_large_values (h.get r) maxValue = .ok res ∧
        out.1.get r = res.mask ∧
        out.2.2.1 = res.id_remap ∧
        out.2.2.2 = res.new_id_to_old_id ∧
        (∀ q, q ≠ r → out.1.get q = h.get q)) := by
  refine ⟨?_, ?_, ?_, ?_, ?_⟩
  · intro atlas L
    have hf := fresh_op_facts h r hr (pairFns (flatPairs atlas L))
    refine ⟨hf.2.1, hf.1, ?_⟩
    show (foldSetF (h.alloc (h.get r)).2
        (pairFns (flatPairs atlas L)) (h.alloc (h.get r)).1).get
      (h.alloc (h.get r)).2 = flatten_regions (h.get r) atlas L
    rw [hf.2.2, applyFns_pairFns]
    rfl
  · intro atlas L
    have hf := fresh_op_facts h r hr (pairFns (excludePairs atlas L))
    refine ⟨hf.2.1, hf.1, ?_⟩
    show (foldSetF (h.alloc (h.get r)).2
        (pairFns (excludePairs atlas L)) (h.alloc (h.get r)).1).get
      (h.alloc (h.get r)).2 = exclude_regions (h.get r) atlas L
    rw [hf.2.2, applyFns_pairFns]
    rfl
  · intro atlas L level out hok
    rw [flatten_descendants_of_level_op] at hok
    by_cases hlev : level < 1
    · rw [if_pos hlev] at hok
      exact absurd hok (by simp)
    · rw [if_neg hlev] at hok
      cases hsteps : flattenLevelSteps atlas L level with
      | error e =>
        rw [hsteps] at hok
        exact absurd hok (by simp)
      | ok pairs =>
        rw [hsteps] at hok
        rw [Except.ok.injEq] at hok
        subst hok
        have hf := fresh_op_facts h r hr (pairFns pairs)
        refine ⟨hf.2.1, hf.1, ?_⟩
        rw [flatten_descendants_of_level, if_neg hlev, hsteps]
        show Except.ok (applyPairs pairs (h.get r)) = _
        show _ = Except.ok ((foldSetF (h.alloc (h.get r)).2
          (pairFns pairs) (h.alloc (h.get r)).1).get
            (h.alloc (h.get r)).2)
        rw [hf.2.2, applyFns_pairFns]
  · intro minSize labelFn atlas
    have hf := fresh_op_facts h r hr
      (rsfSteps (h.get r) minSize labelFn)
    refine ⟨hf.2.1, hf.1, ?_, rfl⟩
    show (foldSetF (h.alloc (h.get r)).2
        (rsfSteps (h.get r) minSize labelFn) (h.alloc (h.get r)).1).get
      (h.alloc (h.get r)).2 =
      (remove_small_fragments (h.get r) minSize labelFn atlas).1
    rw [hf.2.2, rsf_fst_applyFns]
  · intro maxValue out hok
    rw [remap_large_values_op] at hok
    obtain ⟨res, hres, hout1, hout2, hout3, hout4, hout5, _⟩ :=
      remapLoopOp_ok _ _ h r [] [] out hr hok
    exact ⟨hout1, res, hres, hout2, hout3, hout4, hout5⟩

/-- Witness for C10: flattening copies (fresh reference, input cell
unchanged), while remapping returns the input reference 0 itself. -/
theorem frame_effects_witness :
    (flatten_regions_op (Heap.mk [[11, 12, 5]]) 0 flatWitnessAtlas
      ["P"]).2 ≠ 0 ∧
    (flatten_regions_op (Heap.mk [[11, 12, 5]]) 0 flatWitnessAtlas
      ["P"]).1.get 0 = (Heap.mk [[11, 12, 5]]).get 0 ∧
    ((Heap.mk [[1, 0, 3]], 0, [((150 : Nat), (1 : Nat))],
      [((1 : Nat), (150 : Nat))]) :
        Heap × Nat × List (Nat × Nat) × List (Nat × Nat)).2.1 = 0 := by
  have h1 := frame_effects (Heap.mk [[11, 12, 5]]) 0 (by decide)
  have h2 := frame_effects (Heap.mk [[150, 0, 3]]) 0 (by decide)
  refine ⟨(h1.1 flatWitnessAtlas ["P"]).1,
    (h1.1 flatWitnessAtlas ["P"]).2.1, ?_⟩
  exact (h2.2.2.2.2 100
    (Heap.mk [[1, 0, 3]], 0, [(150, 1)], [(1, 150)]) (by rfl)).1

end MaskProc
